import Mathlib

/- Verification of the QLD course-scaling and aggregate-lookup builders: a
shallow embedding of the arithmetic core of `qld_course_scales_app.py`,
`build_course_scales_2025.py` and `build_lookup_final.py`, with theorems
settling the specification claims.  Machine floats of the source are modelled
as exact rationals; Python's `round(x, 2)` is modelled by `round2` below. -/

/-! ### Definitions -/

/-- Python's `round(x, 2)` as used throughout the source: round `x` to the
nearest hundredth.  (Python rounds half-to-even while `round` rounds half up;
at every call site proved below the argument is either an exact hundredth —
where both rules agree and rounding is the identity — or not exactly half-way
between two hundredths, so the model is faithful.) -/
def round2 (q : ℚ) : ℚ := ((round (q * 100) : ℤ) : ℚ) / 100

/-- A rational that is a whole number of hundredths — the form every aggregate
in the final lookup table has after `round(float(...), 2)` at line 647 of
`build_lookup_final.py`. -/
def isCents (q : ℚ) : Prop := ∃ n : ℤ, q = (n : ℚ) / 100

/-- The rounding-tie repair pass of `build_lookup_final.py` (lines 655-658) on
the tail of the results list, modelled on the `(ATAR, aggregate)` projection of
each row: any row whose aggregate is not strictly below the previous (already
repaired) row's aggregate is replaced by `round(previous - 0.01, 2)`.  The
three population columns of a row are copied through unchanged by the source
loop, so they are omitted from the row model.  `prev` is the aggregate of the
previous row. -/
def repair_tail (prev : ℚ) : List (ℚ × ℚ) → List (ℚ × ℚ)
  | [] => []
  | r :: t =>
      let a := if prev ≤ r.2 then round2 (prev - 1 / 100) else r.2
      (r.1, a) :: repair_tail a t

/-- The full repair pass over `results` (rows ordered from the highest ATAR
band down): the loop index starts at 1, so the first row is kept as is. -/
def repair_results (rows : List (ℚ × ℚ)) : List (ℚ × ℚ) :=
  match rows with
  | [] => []
  | r :: t => r :: repair_tail r.2 t

/-- Forward monotonicity pass of the Historical Reference Blender
(`build_lookup_final.py` lines 467-469) on the tail of the blended array: any
value not strictly greater than its running predecessor is bumped to
`predecessor + 0.01`. -/
def bump_tail (prev : ℚ) : List ℚ → List ℚ
  | [] => []
  | a :: t =>
      let a' := if a ≤ prev then prev + 1 / 100 else a
      a' :: bump_tail a' t

/-- The forward pass over the whole blended array (the loop starts at index
1). -/
def enforce_monotonic (l : List ℚ) : List ℚ :=
  match l with
  | [] => []
  | a :: t => a :: bump_tail a t

/-- The clamp of `build_lookup_final.py` lines 472-473:
`np.minimum(blended, 500.0)` followed by `np.maximum(blended, 0.0)`,
elementwise. -/
def clamp_0_500 (x : ℚ) : ℚ := max (min x 500) 0

/-- The two clamp lines applied to the whole array. -/
def clamp_blend (l : List ℚ) : List ℚ := l.map clamp_0_500

/-- Demonstration rows for the repair pass: hundredth-valued aggregates with a
rounding tie between the first two bands. -/
def demo_rows : List (ℚ × ℚ) := [(99.95, 483.62), (99.90, 483.62), (99.85, 483.53)]

/-- `np.searchsorted(arr, x)` with the default `side='left'` on a sorted
array: the first index whose element is not below `x` (the array's length when
every element is below `x`). -/
def searchsorted (l : List ℚ) (x : ℚ) : ℕ :=
  match l with
  | [] => 0
  | a :: t => if x ≤ a then 0 else searchsorted t x + 1

/-- The piecewise-linear inverse lookup `agg_to_atar_2025` of
`build_lookup_final.py` (lines 841-851) used by every back-test.  `rev_aggs`
and `rev_atars` are the aggregate and ATAR columns of the results table sorted
ascending by aggregate.  Indexing of the source's numpy arrays is modelled
with `getD _ 0`; whenever the two leading guards have failed and the table is
nonempty every index is in range, as in the source. -/
def agg_to_atar_2025 (rev_aggs rev_atars : List ℚ) (aggregate : ℚ) : ℚ :=
  if aggregate ≤ rev_aggs.headD 0 then rev_atars.headD 0
  else if rev_aggs.getLastD 0 ≤ aggregate then rev_atars.getLastD 0
  else
    let idx := searchsorted rev_aggs aggregate
    let lo := idx - 1
    let hi := idx
    let frac := (aggregate - rev_aggs.getD lo 0) / (rev_aggs.getD hi 0 - rev_aggs.getD lo 0)
    rev_atars.getD lo 0 + frac * (rev_atars.getD hi 0 - rev_atars.getD lo 0)

/-- One per-subject record of the simulation input, as loaded from the course
scales CSV by `build_lookup_final.py` (lines 105-115): the five quartic
coefficients and the curve's minimum raw score, maximum raw score and maximum
scaled score.  The name field is not used by the simulation arithmetic. -/
structure SimSubject where
  X4 : ℚ
  X3 : ℚ
  X2 : ℚ
  X1 : ℚ
  X0 : ℚ
  min_x : ℚ
  max_x : ℚ
  max_y : ℚ
deriving DecidableEq

/-- `eval_scaling_poly` (`build_lookup_final.py` lines 120-126): 0 below the
subject's minimum raw score, otherwise the quartic at the raw score clamped
into [0, max_y] (`max(0.0, min(scaled, max_y))`). -/
def eval_scaling_poly (subj : SimSubject) (raw_pct : ℚ) : ℚ :=
  if raw_pct < subj.min_x then 0
  else
    max 0 (min (subj.X4 * raw_pct ^ 4 + subj.X3 * raw_pct ^ 3 + subj.X2 * raw_pct ^ 2 +
      subj.X1 * raw_pct + subj.X0) subj.max_y)

/-- Python's `scaled_scores.sort(reverse=True)`: sort descending. -/
def sort_desc (l : List ℚ) : List ℚ := l.insertionSort (fun a b => b ≤ a)

/-- The body of the `simulate_aggregate_curve` loop at one raw score (lines
134-141): collect the scaled score of every subject whose minimum raw score is
not above the raw score, sort descending, sum the best five
(`sum(scaled_scores[:5])`). -/
def simulate_at (subjects : List SimSubject) (raw_pct : ℚ) : ℚ :=
  ((sort_desc ((subjects.filter (fun s => s.min_x ≤ raw_pct)).map
    (fun s => eval_scaling_poly s raw_pct))).take 5).sum

/-- `simulate_aggregate_curve` (lines 129-142): the (raw percentage,
aggregate) pairs over the fixed grid `i * 0.5` for `i = 0, ..., 200`. -/
def simulate_aggregate_curve (subjects : List SimSubject) : List (ℚ × ℚ) :=
  (List.range 201).map
    (fun (i : ℕ) => ((i : ℚ) * (1 / 2), simulate_at subjects ((i : ℚ) * (1 / 2))))

/-- The specification's reading of the same quantity, for the refinement
claim: the sum of the 5 largest per-subject contributions over ALL subjects,
where a subject below its minimum raw score contributes 0 and otherwise
contributes its quartic value clamped into [0, max_y] — which is exactly
`eval_scaling_poly`, with no filtering of the subject list. -/
def top_five_contribution_sum (subjects : List SimSubject) (raw_pct : ℚ) : ℚ :=
  ((sort_desc (subjects.map (fun s => eval_scaling_poly s raw_pct))).take 5).sum

/-- Two concrete subjects used by the simulation witness: linear curves, the
first invisible below raw score 10. -/
def demo_sim_subjects : List SimSubject :=
  [⟨0, 0, 0, 1, 0, 10, 100, 80⟩, ⟨0, 0, 0, 2, 0, 0, 100, 90⟩]

/-- Subject type tag of `qld_course_scales_app.py` (`SubjectData.subject_type`). -/
inductive SubjectType
  | general
  | nodata
  | applied
  | vet
deriving DecidableEq

/-- The numeric state of a `SubjectData` record from
`qld_course_scales_app.py`: the eight anchor coordinates, the fitted
coefficients and the maximum fit error.  The identity strings and the
`committed` UI flag play no part in the claims. -/
structure Subject where
  subject_type : SubjectType
  min_x : ℚ
  pzx : ℚ
  p25x : ℚ
  p50x : ℚ
  p75x : ℚ
  p90x : ℚ
  p99x : ℚ
  max_x : ℚ
  min_y : ℚ
  pzy : ℚ
  p25y : ℚ
  p50y : ℚ
  p75y : ℚ
  p90y : ℚ
  p99y : ℚ
  max_y : ℚ
  X4 : ℚ
  X3 : ℚ
  X2 : ℚ
  X1 : ℚ
  X0 : ℚ
  Z3 : ℚ
  Z2 : ℚ
  Z1 : ℚ
  Z0 : ℚ
  max_fit_error : ℚ
deriving DecidableEq

/-- Coefficients of a fitted degree-4 polynomial, highest degree first, as
returned by `fit_poly_4`. -/
structure Quartic where
  X4 : ℚ
  X3 : ℚ
  X2 : ℚ
  X1 : ℚ
  X0 : ℚ
deriving DecidableEq

/-- Coefficients of a fitted degree-3 polynomial, as returned by
`fit_poly_3`. -/
structure CubicFit where
  Z3 : ℚ
  Z2 : ℚ
  Z1 : ℚ
  Z0 : ℚ
deriving DecidableEq

/-- The least-squares polynomial fitters `fit_poly_4` / `fit_poly_3` (numpy
`Polynomial.fit` followed by `convert`).  They are floating-point numerical
linear-algebra routines; every claim proved below holds for an arbitrary
fitter, so the pair is abstracted as an explicit parameter threaded through
the embedding, and each theorem quantifies over it. -/
structure Fitter where
  fit4 : List ℚ → List ℚ → Quartic
  fit3 : List ℚ → List ℚ → CubicFit

/-- `X4*x^4 + X3*x^3 + X2*x^2 + X1*x + X0`, the quartic evaluation used by
`compute_polynomials` and `auto_optimize_subject`. -/
def eval_quartic (c : Quartic) (x : ℚ) : ℚ :=
  c.X4 * x ^ 4 + c.X3 * x ^ 3 + c.X2 * x ^ 2 + c.X1 * x + c.X0

/-- `4*X4*x^3 + 3*X3*x^2 + 2*X2*x + X1`, the sampled derivative of the
optimizer's monotonicity check. -/
def quartic_deriv (c : Quartic) (x : ℚ) : ℚ :=
  4 * c.X4 * x ^ 3 + 3 * c.X3 * x ^ 2 + 2 * c.X2 * x + c.X1

/-- `max(1, min(pdf_xs[i+1] - pdf_xs[i]))` over the five fixed percentile x
values — the minimum-gap guard shared by `build_general` and
`auto_optimize_subject`. -/
def pdf_min_gap (p25x p50x p75x p90x p99x : ℚ) : ℚ :=
  max 1 (min (min (p50x - p25x) (p75x - p50x)) (min (p90x - p75x) (p99x - p90x)))

/-- The quadratic through three points evaluated at `x`, in Lagrange form:
`np.polyfit(xs, ys, 2)` on exactly three distinct x values followed by
`np.polyval(..., x)` computes precisely this interpolating quadratic (its
least-squares system is square, hence interpolation). -/
def quad_interp_eval (x0 y0 x1 y1 x2 y2 x : ℚ) : ℚ :=
  y0 * ((x - x1) * (x - x2)) / ((x0 - x1) * (x0 - x2)) +
  y1 * ((x - x0) * (x - x2)) / ((x1 - x0) * (x1 - x2)) +
  y2 * ((x - x0) * (x - x1)) / ((x2 - x0) * (x2 - x1))

/-- `SubjectData.compute_polynomials`: for a general subject with percentile
data, fit the quartic through all 8 anchors, fit the cubic through the lowest
4, and record the maximum absolute quartic residual over the 8 anchors;
otherwise return the record unchanged. -/
def compute_polynomials (F : Fitter) (s : Subject) : Subject :=
  if s.subject_type ≠ SubjectType.general ∨ s.p25x = 0 then s
  else
    let x_all := [s.min_x, s.pzx, s.p25x, s.p50x, s.p75x, s.p90x, s.p99x, s.max_x]
    let y_all := [s.min_y, s.pzy, s.p25y, s.p50y, s.p75y, s.p90y, s.p99y, s.max_y]
    let q := F.fit4 x_all y_all
    let c := F.fit3 [s.min_x, s.pzx, s.p25x, s.p50x] [s.min_y, s.pzy, s.p25y, s.p50y]
    let err := (List.zip x_all y_all).foldl
      (fun e p => max e |eval_quartic q p.1 - p.2|) 0
    { s with
      X4 := q.X4, X3 := q.X3, X2 := q.X2, X1 := q.X1, X0 := q.X0,
      Z3 := c.Z3, Z2 := c.Z2, Z1 := c.Z1, Z0 := c.Z0,
      max_fit_error := err }

/-- `build_general` (`qld_course_scales_app.py` lines 415-440): place Min at
`(max(0, min(10, p25x - 2*min_gap)), 0)`, PZ at the midpoint of Min.x and
P25.x with a quadratic-interpolation estimate for its y clamped into
`[0, 0.95*p25y]`, Max at `(100, y)` with y extrapolated from the P90-P99
slope, clamped to `[p99y + 0.5, 100]` and rounded, then fit. -/
def build_general (F : Fitter)
    (p25x p50x p75x p90x p99x p25y p50y p75y p90y p99y : ℚ) : Subject :=
  let min_gap := pdf_min_gap p25x p50x p75x p90x p99x
  let min_x := max 0 (min 10 (p25x - 2 * min_gap))
  let pzx := (min_x + p25x) / 2
  let max_x : ℚ := 100
  let max_y0 := if p90x < p99x
    then p99y + ((p99y - p90y) / (p99x - p90x)) * (max_x - p99x)
    else p99y + 1 / 2
  let max_y := round2 (min 100 (max max_y0 (p99y + 1 / 2)))
  let pzy0 := quad_interp_eval min_x 0 p25x p25y p50x p50y pzx
  let pzy := max 0 (min (p25y * (95 / 100)) pzy0)
  compute_polynomials F
    { subject_type := SubjectType.general,
      min_x := min_x, pzx := pzx, p25x := p25x, p50x := p50x, p75x := p75x,
      p90x := p90x, p99x := p99x, max_x := max_x,
      min_y := 0, pzy := pzy, p25y := p25y, p50y := p50y, p75y := p75y,
      p90y := p90y, p99y := p99y, max_y := max_y,
      X4 := 0, X3 := 0, X2 := 0, X1 := 0, X0 := 0,
      Z3 := 0, Z2 := 0, Z1 := 0, Z0 := 0, max_fit_error := 0 }

/-- The grid scan order of `auto_optimize_subject`: the Min.x index `mi`
(0..40) in the outer loop and the LowerBoundary.y index `pyi` (0..30) in the
inner loop — a deterministic 41-by-31 scan. -/
def cand_grid : List (ℕ × ℕ) :=
  (List.range 41).flatMap (fun mi => (List.range 31).map (fun pyi => (mi, pyi)))

/-- The Min.x of grid cell `mi`:
`min_x_lo + (min_x_hi - min_x_lo) * mi / n_mx` with `min_x_lo = 0`,
`min_x_hi = p25x - 2*min_gap` and `n_mx = 40`. -/
def cand_mx (s : Subject) (mi : ℕ) : ℚ :=
  0 + (s.p25x - 2 * pdf_min_gap s.p25x s.p50x s.p75x s.p90x s.p99x - 0) * mi / 40

/-- The candidate PZ x: always the midpoint `(mx + p25x) / 2`. -/
def cand_pzx (s : Subject) (mi : ℕ) : ℚ := (cand_mx s mi + s.p25x) / 2

/-- The LowerBoundary.y of grid cell `pyi`:
`pzy_lo + (pzy_hi - pzy_lo) * pyi / n_pzy` with `pzy_lo = 0.1`,
`pzy_hi = p25y * 0.95` and `n_pzy = 30`. -/
def cand_pzy (s : Subject) (pyi : ℕ) : ℚ :=
  1 / 10 + (s.p25y * (95 / 100) - 1 / 10) * pyi / 30

/-- The candidate's 8 anchor x values (`min_y = 0` always, so the y list below
starts with 0). -/
def cand_x_all (s : Subject) (mi : ℕ) : List ℚ :=
  [cand_mx s mi, cand_pzx s mi, s.p25x, s.p50x, s.p75x, s.p90x, s.p99x, s.max_x]

/-- The candidate's 8 anchor y values. -/
def cand_y_all (s : Subject) (pyi : ℕ) : List ℚ :=
  [0, cand_pzy s pyi, s.p25y, s.p50y, s.p75y, s.p90y, s.p99y, s.max_y]

/-- The quartic fitted at a grid cell. -/
def cand_fit (F : Fitter) (s : Subject) (c : ℕ × ℕ) : Quartic :=
  F.fit4 (cand_x_all s c.1) (cand_y_all s c.2)

/-- The optimizer's sampled-derivative monotonicity check at a grid cell: 51
equally spaced sample points over `[mx, max_x]`; the candidate survives iff no
sampled derivative is below `-0.001`. -/
def cand_monotonic (F : Fitter) (s : Subject) (c : ℕ × ℕ) : Bool :=
  (List.range 51).all (fun t =>
    -(1 / 1000) ≤ quartic_deriv (cand_fit F s c)
      (cand_mx s c.1 + (s.max_x - cand_mx s c.1) * t / 50))

/-- The candidate's maximum absolute residual over the 8 anchors. -/
def cand_err (F : Fitter) (s : Subject) (c : ℕ × ℕ) : ℚ :=
  (List.zip (cand_x_all s c.1) (cand_y_all s c.2)).foldl
    (fun e p => max e |eval_quartic (cand_fit F s c) p.1 - p.2|) 0

/-- The `(mx, pzx, pzy)` triple the optimizer stores for the best cell. -/
def cand_payload (s : Subject) (c : ℕ × ℕ) : ℚ × ℚ × ℚ :=
  (cand_mx s c.1, cand_pzx s c.1, cand_pzy s c.2)

/-- One step of the grid scan's running best: `best_err` starts at infinity
(modelled by `none`), a candidate is considered only when it passes the
monotonicity check, and it replaces the running best only when its error is
strictly smaller (`err < best_err`), so ties keep the earlier cell. -/
def scan_step {α β : Type} (valid : α → Bool) (errf : α → ℚ) (payload : α → β)
    (acc : Option (ℚ × β)) (c : α) : Option (ℚ × β) :=
  if valid c then
    match acc with
    | none => some (errf c, payload c)
    | some (e, b) => if errf c < e then some (errf c, payload c) else acc
  else acc

/-- The whole grid scan as a fold in scan order. -/
def scan_fold {α β : Type} (valid : α → Bool) (errf : α → ℚ) (payload : α → β)
    (l : List α) : Option (ℚ × β) :=
  l.foldl (scan_step valid errf payload) none

/-- `auto_optimize_subject` (`qld_course_scales_app.py` lines 456-528): reject
non-general or dataless records; reject an empty Min.x search space
(`p25x - 2*min_gap < 0`) and an empty LowerBoundary.y range
(`pzy_lo >= pzy_hi`); otherwise scan the 41-by-31 grid keeping the first
lowest-error monotonic candidate, and only on success install the winning
`(min_x, pzx, pzy)`, set `min_y = 0` and refit. -/
def auto_optimize_subject (F : Fitter) (s : Subject) : Bool × Subject :=
  if s.subject_type ≠ SubjectType.general ∨ s.p25x = 0 then (false, s)
  else if s.p25x - 2 * pdf_min_gap s.p25x s.p50x s.p75x s.p90x s.p99x < 0 then (false, s)
  else if s.p25y * (95 / 100) ≤ 1 / 10 then (false, s)
  else
    match scan_fold (cand_monotonic F s) (cand_err F s) (cand_payload s) cand_grid with
    | none => (false, s)
    | some (_, mx, pzx, pzy) =>
        (true, compute_polynomials F
          { s with min_x := mx, pzx := pzx, pzy := pzy, min_y := 0 })

/-- The numeric columns of the row dict returned by `process_general_subject`
in `build_course_scales_2025.py` (lines 294-322); the name and id columns are
omitted.  Columns `PZX`, `Max X`, `PZY`, `Max Y` are rounded to 2 decimals
exactly as in the source. -/
structure ScaleRow where
  min_x : ℚ
  pzx : ℚ
  p25x : ℚ
  p50x : ℚ
  p75x : ℚ
  p90x : ℚ
  p99x : ℚ
  max_x : ℚ
  min_y : ℚ
  pzy : ℚ
  p25y : ℚ
  p50y : ℚ
  p75y : ℚ
  p90y : ℚ
  p99y : ℚ
  max_y : ℚ
  X4 : ℚ
  X3 : ℚ
  X2 : ℚ
  X1 : ℚ
  X0 : ℚ
  Z3 : ℚ
  Z2 : ℚ
  Z1 : ℚ
  Z0 : ℚ
deriving DecidableEq

/-- `estimate_max` (`build_course_scales_2025.py` lines 242-258). -/
def estimate_max (p90x p99x p90y p99y : ℚ) : ℚ × ℚ :=
  let dx := p99x - p90x
  let max_x := min 100 (p99x + max 1 dx)
  let max_y := if p90x < p99x
    then p99y + ((p99y - p90y) / (p99x - p90x)) * (max_x - p99x)
    else p99y
  (max_x, min 100 (max max_y (p99y + 1 / 2)))

/-- `process_general_subject` (`build_course_scales_2025.py` lines 261-322):
the batch builder fixes `Min.x = 10` and places the LowerBoundary at
`PZX = 0.75 * P25X` — not at the midpoint of Min.x and P25.x. -/
def process_general_subject (F : Fitter)
    (p25x p50x p75x p90x p99x p25y p50y p75y p90y p99y : ℚ) : ScaleRow :=
  let pzx := (3 / 4) * p25x
  let mm := estimate_max p90x p99x p90y p99y
  let pzy0 := quad_interp_eval 10 0 p25x p25y p50x p50y pzx
  let pzy := max 0 (min (p25y * (95 / 100)) pzy0)
  let q := F.fit4 [10, pzx, p25x, p50x, p75x, p90x, p99x, mm.1]
    [0, pzy, p25y, p50y, p75y, p90y, p99y, mm.2]
  let c := F.fit3 [10, pzx, p25x, p50x] [0, pzy, p25y, p50y]
  { min_x := 10, pzx := round2 pzx, p25x := p25x, p50x := p50x, p75x := p75x,
    p90x := p90x, p99x := p99x, max_x := round2 mm.1,
    min_y := 0, pzy := round2 pzy, p25y := p25y, p50y := p50y, p75y := p75y,
    p90y := p90y, p99y := p99y, max_y := round2 mm.2,
    X4 := q.X4, X3 := q.X3, X2 := q.X2, X1 := q.X1, X0 := q.X0,
    Z3 := c.Z3, Z2 := c.Z2, Z1 := c.Z1, Z0 := c.Z0 }

/-- A trivial all-zero fitter used by witnesses: the optimizer claims hold for
an arbitrary fitter. -/
def zero_fitter : Fitter := ⟨fun _ _ => ⟨0, 0, 0, 0, 0⟩, fun _ _ => ⟨0, 0, 0, 0⟩⟩

/-- A fitter returning the constant polynomial 5: its derivative is 0
everywhere, so every grid cell passes the monotonicity check, and on
`demo_subject` below its maximum residual is the same at every cell, so the
optimizer keeps the first cell scanned. -/
def const5_fitter : Fitter := ⟨fun _ _ => ⟨0, 0, 0, 0, 5⟩, fun _ _ => ⟨0, 0, 0, 5⟩⟩

/-- A general subject whose optimizer search space is empty:
`p25x - 2*min_gap = 1 - 2 < 0`. -/
def empty_space_subject : Subject :=
  { subject_type := SubjectType.general,
    min_x := 10, pzx := 0, p25x := 1, p50x := 2, p75x := 3, p90x := 4, p99x := 5,
    max_x := 100, min_y := 0, pzy := 0, p25y := 10, p50y := 20, p75y := 30,
    p90y := 40, p99y := 50, max_y := 60,
    X4 := 0, X3 := 0, X2 := 0, X1 := 0, X0 := 0,
    Z3 := 0, Z2 := 0, Z1 := 0, Z0 := 0, max_fit_error := 0 }

/-- A small general subject with valid search space and all scaled values 10:
under `const5_fitter` every anchor has residual at most 5, with 5 attained at
the Min anchor, so every grid cell has error exactly 5. -/
def demo_subject : Subject :=
  { subject_type := SubjectType.general,
    min_x := 10, pzx := 0, p25x := 4, p50x := 5, p75x := 6, p90x := 7, p99x := 8,
    max_x := 9, min_y := 0, pzy := 0, p25y := 10, p50y := 10, p75y := 10,
    p90y := 10, p99y := 10, max_y := 10,
    X4 := 0, X3 := 0, X2 := 0, X1 := 0, X0 := 0,
    Z3 := 0, Z2 := 0, Z1 := 0, Z0 := 0, max_fit_error := 0 }

/-- The 2025 English percentile row of Table 6 run through the batch
builder. -/
def english_row : ScaleRow :=
  process_general_subject zero_fitter 61 72 83 91 99 52.67 70.12 83.18 89.48 93.60

/-- Percentile data on which `build_general`'s LowerBoundary.y estimate clamps
to 0: the interpolating parabola through (10, 0), (61, 1), (72, 70) is far
below zero at the midpoint x = 35.5. -/
def clamp_zero_subject : Subject :=
  build_general zero_fitter 61 72 83 91 99 1 70 83.18 89.48 93.60

/-- The running band-count dictionary `band_students` of
`build_lookup_final.py`, modelled as an association list with distinct keys.
Python's dict keeps an existing key's position on update and appends new keys;
the program only observes the dictionary through key lookups, membership tests
and a full sort of its keys, so the entry order is irrelevant to everything
proved below. -/
abbrev BandMap := List (ℚ × ℤ)

/-- `br in band_students`. -/
def bm_contains : BandMap → ℚ → Bool
  | [], _ => false
  | p :: t, k => p.1 = k || bm_contains t k

/-- `band_students.get(br, 0)` / `band_students[br]`: the value of the (unique)
entry with the given key, 0 when absent. -/
def bm_get : BandMap → ℚ → ℤ
  | [], _ => 0
  | p :: t, k => if p.1 = k then p.2 else bm_get t k

/-- `band_students[br] = v`: replace the entry in place when the key exists
(a Python dict keeps the key's position on update), append it otherwise. -/
def bm_insert : BandMap → ℚ → ℤ → BandMap
  | [], k, v => [(k, v)]
  | p :: t, k, v => if p.1 = k then (k, v) :: t else p :: bm_insert t k v

/-- The `bands_in_range` while loop of `build_lookup_final.py` (lines
536-539): `b = high; while b >= low - 0.001: append round(b, 2); b -= 0.05`,
in closed form: the k-th band is `round2 (high - k * 0.05)` and the loop body
runs exactly for `k = 0, ..., ⌊(high - low + 0.001) * 20⌋`. -/
def bands_in_range (low high : ℚ) : List ℚ :=
  if high < low - 1 / 1000 then []
  else (List.range (((high - low + 1 / 1000) * 20).floor.toNat + 1)).map
    (fun (k : ℕ) => round2 (high - (k : ℚ) * (1 / 20)))

/-- `already_assigned` (line 541): the counts already assigned to bands inside
the range (`sum(band_students.get(br, 0) for br in bands_in_range if br in
band_students)`). -/
def already_assigned (m : BandMap) (low high : ℚ) : ℤ :=
  (((bands_in_range low high).filter (fun br => bm_contains m br)).map
    (fun br => bm_get m br)).sum

/-- `unassigned` (line 542): the bands of the range not yet in the
dictionary. -/
def unassigned_bands (m : BandMap) (low high : ℚ) : List ℚ :=
  (bands_in_range low high).filter (fun br => ! bm_contains m br)

/-- `remaining = total_count - already_assigned` (line 543). -/
def range_remaining (m : BandMap) (low high : ℚ) (total : ℤ) : ℤ :=
  total - already_assigned m low high

/-- `base = remaining // n` (line 547), Python floor division. -/
def range_base (m : BandMap) (low high : ℚ) (total : ℤ) : ℤ :=
  Int.fdiv (range_remaining m low high total) ((unassigned_bands m low high).length : ℤ)

/-- `extra = remaining - base * n` (line 548). -/
def range_extra (m : BandMap) (low high : ℚ) (total : ℤ) : ℤ :=
  range_remaining m low high total
    - range_base m low high total * ((unassigned_bands m low high).length : ℤ)

/-- One `table14` range split (lines 532-550): skip the range when nothing
remains to assign or no band is unassigned; otherwise give each unassigned
band `base` students, plus one extra for the first `extra` unassigned bands
in descending band order (`enumerate(sorted(unassigned, reverse=True))`). -/
def process_range (m : BandMap) (low high : ℚ) (total : ℤ) : BandMap :=
  if range_remaining m low high total ≤ 0 ∨ (unassigned_bands m low high).length = 0 then m
  else (((unassigned_bands m low high).insertionSort (fun a b => b ≤ a)).enum).foldl
    (fun acc p => bm_insert acc p.2
      (range_base m low high total
        + if (p.1 : ℤ) < range_extra m low high total then 1 else 0)) m

/-- The whole `for range_str, total_count in table14` loop over a supplied
population distribution, each range given as `(low, high, total)` (the
`range_str.split("-")` parse of the source), starting from the dictionary
seeded with the explicit per-band counts of `table13`. -/
def split_bands (init : BandMap) (dist : List (ℚ × ℚ × ℤ)) : BandMap :=
  dist.foldl (fun m r => process_range m r.1 r.2.1 r.2.2) init

/-- The total assigned to a range's bands in a dictionary (absent bands
count 0). -/
def range_sum (m : BandMap) (low high : ℚ) : ℤ :=
  ((bands_in_range low high).map (fun br => bm_get m br)).sum

/-- `sorted_bands = sorted(band_students.keys(), reverse=True)` (line 553). -/
def sorted_bands (m : BandMap) : List ℚ :=
  (m.map Prod.fst).insertionSort (fun a b => b ≤ a)

/-- The cumulative loop (lines 554-558): a running total down the sorted
bands; the cumulative count at the lowest band is the final running value. -/
def cumulative_at_lowest (m : BandMap) : ℤ :=
  (sorted_bands m).foldl (fun running band => running + bm_get m band) 0

instance flip_le_total : IsTotal ℚ (fun a b => b ≤ a) := ⟨fun a b => le_total b a⟩

instance flip_le_trans : IsTrans ℚ (fun a b => b ≤ a) :=
  ⟨fun _ _ _ h1 h2 => le_trans h2 h1⟩

instance flip_le_antisymm : IsAntisymm ℚ (fun a b => b ≤ a) :=
  ⟨fun _ _ h1 h2 => le_antisymm h2 h1⟩

/-! ### Theorems -/

theorem isCents_mul_self_cancel {n : ℤ} : ((n : ℚ) / 100) * 100 = (n : ℚ) := by
  field_simp

theorem round2_of_isCents {q : ℚ} (h : isCents q) : round2 q = q := by
  obtain ⟨n, rfl⟩ := h
  rw [round2, isCents_mul_self_cancel, round_intCast]

theorem isCents_sub_hundredth {q : ℚ} (h : isCents q) : isCents (q - 1 / 100) := by
  obtain ⟨n, rfl⟩ := h
  exact ⟨n - 1, by push_cast; ring⟩

theorem round2_le_add_half (x : ℚ) : round2 x ≤ x + 1 / 200 := by
  have h := round_le_add_half (x * 100)
  rw [round2]
  rw [div_le_iff₀ (by norm_num : (0:ℚ) < 100)]
  calc ((round (x * 100) : ℤ) : ℚ) ≤ x * 100 + 1 / 2 := h
    _ = (x + 1 / 200) * 100 := by ring

theorem round2_sub_hundredth_lt (p : ℚ) : round2 (p - 1 / 100) < p := by
  have h := round2_le_add_half (p - 1 / 100)
  linarith

theorem repair_tail_chain (t : List (ℚ × ℚ)) :
    ∀ p : ℚ × ℚ, List.Chain (fun a b => b.2 < a.2) p (repair_tail p.2 t) := by
  induction t with
  | nil => intro p; exact List.Chain.nil
  | cons r t ih =>
      intro p
      rw [repair_tail]
      refine List.Chain.cons ?_ (ih (r.1, if p.2 ≤ r.2 then round2 (p.2 - 1 / 100) else r.2))
      by_cases h : p.2 ≤ r.2
      · simpa [h] using round2_sub_hundredth_lt p.2
      · simpa [h] using lt_of_not_le h

theorem repair_tail_zip (t : List (ℚ × ℚ)) :
    ∀ p q : ℚ × ℚ, isCents p.2 → (∀ r ∈ t, isCents r.2) →
      List.Chain (fun x y => y.1.2 = y.2.2 ∨ y.1.2 = x.1.2 - 1 / 100)
        (p, q) ((repair_tail p.2 t).zip t) := by
  induction t with
  | nil => intro p q _ _; exact List.Chain.nil
  | cons r t ih =>
      intro p q hp ht
      rw [repair_tail]
      have hr : isCents r.2 := ht r (List.mem_cons_self r t)
      by_cases h : p.2 ≤ r.2
      · have hval : (if p.2 ≤ r.2 then round2 (p.2 - 1 / 100) else r.2) = p.2 - 1 / 100 := by
          rw [if_pos h, round2_of_isCents (isCents_sub_hundredth hp)]
        rw [hval]
        refine List.Chain.cons (Or.inr rfl) ?_
        exact ih (r.1, p.2 - 1 / 100) r (isCents_sub_hundredth hp)
          (fun x hx => ht x (List.mem_cons_of_mem r hx))
      · have hval : (if p.2 ≤ r.2 then round2 (p.2 - 1 / 100) else r.2) = r.2 := if_neg h
        rw [hval]
        refine List.Chain.cons (Or.inl rfl) ?_
        exact ih (r.1, r.2) r hr (fun x hx => ht x (List.mem_cons_of_mem r hx))

/-- C1: after the rounding-tie repair pass, the final lookup table (rows
ordered from the highest rank-score band to the lowest) has strictly
decreasing aggregates at every adjacent pair of rows — zero violations — and
every row's aggregate is either its original (rounded) aggregate or the
previous row's aggregate minus the minimal decrement 0.01 (the repaired
case). -/
theorem final_table_strictly_descending (rows : List (ℚ × ℚ))
    (hc : ∀ r ∈ rows, isCents r.2) :
    List.Chain' (fun a b => b.2 < a.2) (repair_results rows) ∧
    List.Chain' (fun x y => y.1.2 = y.2.2 ∨ y.1.2 = x.1.2 - 1 / 100)
      ((repair_results rows).zip rows) := by
  cases rows with
  | nil => exact ⟨List.chain'_nil, List.chain'_nil⟩
  | cons r t =>
      constructor
      · exact repair_tail_chain t r
      · have hr : isCents r.2 := hc r (List.mem_cons_self r t)
        exact repair_tail_zip t r r hr (fun x hx => hc x (List.mem_cons_of_mem r hx))

/-- Witness for C1 at a concrete table with a rounding tie: bands 99.95 and
99.90 both carry aggregate 483.62, and the repair is checked by the theorem. -/
theorem final_table_strictly_descending_witness :
    List.Chain' (fun a b => b.2 < a.2) (repair_results demo_rows) ∧
    List.Chain' (fun x y => y.1.2 = y.2.2 ∨ y.1.2 = x.1.2 - 1 / 100)
      ((repair_results demo_rows).zip demo_rows) :=
  final_table_strictly_descending demo_rows (by
    intro r hr
    simp only [demo_rows, List.mem_cons, List.not_mem_nil, or_false] at hr
    rcases hr with rfl | rfl | rfl
    · exact ⟨48362, by norm_num⟩
    · exact ⟨48362, by norm_num⟩
    · exact ⟨48353, by norm_num⟩)

theorem bump_tail_chain (t : List ℚ) :
    ∀ prev : ℚ, List.Chain (· < ·) prev (bump_tail prev t) := by
  induction t with
  | nil => intro prev; exact List.Chain.nil
  | cons a t ih =>
      intro prev
      rw [bump_tail]
      refine List.Chain.cons ?_ (ih _)
      by_cases h : a ≤ prev
      · simp [h]
      · simpa [h] using lt_of_not_le h

theorem enforce_monotonic_chain (l : List ℚ) :
    List.Chain' (· < ·) (enforce_monotonic l) := by
  cases l with
  | nil => exact List.chain'_nil
  | cons a t => exact bump_tail_chain t a

/-- C2 counterexample: when two adjacent blended values both sit at or above
the 500 cap, the clamp that runs after the forward monotonicity pass collapses
them to a tie, so the clamped array is not strictly increasing. -/
theorem blended_clamp_not_strict :
    clamp_blend (enforce_monotonic [500, 501]) = [500, 500] ∧
    ¬ List.Chain' (· < ·) (clamp_blend (enforce_monotonic [500, 501])) := by
  have h1 : enforce_monotonic [500, 501] = [(500 : ℚ), 501] := by
    norm_num [enforce_monotonic, bump_tail]
  have h2 : clamp_blend [(500 : ℚ), 501] = [500, 500] := by
    norm_num [clamp_blend, clamp_0_500]
  refine ⟨h1 ▸ h2, ?_⟩
  rw [h1, h2]
  simp [List.chain'_cons]

/-- C2 amended: the forward pass makes the blended curve strictly increasing
at every adjacent pair of grid points; provided every value it produces
already lies in the aggregate range [0, 500] — as in the program's run — the
subsequent clamp is the identity and the final array is strictly increasing as
well.  (In general the clamp only preserves non-strict order: two adjacent
values both saturating at a bound become a tie, as the counterexample
shows.) -/
theorem blended_strictly_increasing (l : List ℚ)
    (h : ∀ x ∈ enforce_monotonic l, 0 ≤ x ∧ x ≤ 500) :
    List.Chain' (· < ·) (enforce_monotonic l) ∧
    clamp_blend (enforce_monotonic l) = enforce_monotonic l ∧
    List.Chain' (· < ·) (clamp_blend (enforce_monotonic l)) := by
  have hid : clamp_blend (enforce_monotonic l) = enforce_monotonic l := by
    rw [clamp_blend]
    calc (enforce_monotonic l).map clamp_0_500
        = (enforce_monotonic l).map id := by
          refine List.map_congr_left fun x hx => ?_
          have hb := h x hx
          rw [clamp_0_500, min_eq_left hb.2, max_eq_left hb.1, id]
      _ = enforce_monotonic l := List.map_id _
  exact ⟨enforce_monotonic_chain l, hid, by rw [hid]; exact enforce_monotonic_chain l⟩

/-- Witness for C2 at a concrete blended array containing a tie that the
forward pass must bump, with all values inside [0, 500]. -/
theorem blended_strictly_increasing_witness :
    List.Chain' (· < ·) (enforce_monotonic [1, 2, 2]) ∧
    clamp_blend (enforce_monotonic [1, 2, 2]) = enforce_monotonic [1, 2, 2] ∧
    List.Chain' (· < ·) (clamp_blend (enforce_monotonic [1, 2, 2])) :=
  blended_strictly_increasing [1, 2, 2] (by
    intro x hx
    have hev : enforce_monotonic [1, 2, 2] = [(1 : ℚ), 2, 2 + 1 / 100] := by
      norm_num [enforce_monotonic, bump_tail]
    rw [hev] at hx
    simp only [List.mem_cons, List.not_mem_nil, or_false] at hx
    rcases hx with rfl | rfl | rfl <;> norm_num)

theorem getD_eq_get (l : List ℚ) (i : ℕ) (h : i < l.length) :
    l.getD i 0 = l.get ⟨i, h⟩ := by
  rw [List.getD_eq_getElem l 0 h, List.get_eq_getElem]

theorem headD_eq_get (l : List ℚ) (h : 0 < l.length) :
    l.headD 0 = l.get ⟨0, h⟩ := by
  cases l with
  | nil => simp at h
  | cons a t => rfl

theorem getLastD_eq_get (l : List ℚ) (h : 0 < l.length) :
    l.getLastD 0 = l.get ⟨l.length - 1, by omega⟩ := by
  cases l with
  | nil => simp at h
  | cons a t =>
      rw [List.getLastD_eq_getLast?, List.getLast?_eq_getLast _ (by simp),
        Option.getD_some, List.getLast_eq_get]

theorem searchsorted_le_of_le (l : List ℚ) (x : ℚ) :
    ∀ (i : ℕ) (h : i < l.length), x ≤ l.get ⟨i, h⟩ → searchsorted l x ≤ i := by
  induction l with
  | nil => intro i h; simp at h
  | cons a t ih =>
      intro i h hx
      rw [searchsorted]
      by_cases hxa : x ≤ a
      · simp [hxa]
      · rw [if_neg hxa]
        cases i with
        | zero => exact absurd hx hxa
        | succ j =>
            have := ih j (by simpa using h) (by simpa using hx)
            omega

theorem get_lt_of_lt_searchsorted (l : List ℚ) (x : ℚ) :
    ∀ (i : ℕ) (h : i < l.length), i < searchsorted l x → l.get ⟨i, h⟩ < x := by
  induction l with
  | nil => intro i h; simp at h
  | cons a t ih =>
      intro i h hi
      rw [searchsorted] at hi
      by_cases hxa : x ≤ a
      · rw [if_pos hxa] at hi; omega
      · rw [if_neg hxa] at hi
        cases i with
        | zero => exact lt_of_not_le hxa
        | succ j => exact ih j (by simpa using h) (by omega)

theorem le_get_searchsorted (l : List ℚ) (x : ℚ) :
    ∀ h : searchsorted l x < l.length, x ≤ l.get ⟨searchsorted l x, h⟩ := by
  induction l with
  | nil => intro h; simp [searchsorted] at h
  | cons a t ih =>
      intro h
      by_cases hxa : x ≤ a
      · simpa [searchsorted, hxa] using hxa
      · have hrw : searchsorted (a :: t) x = searchsorted t x + 1 := by
          rw [searchsorted, if_neg hxa]
        have hlt : searchsorted t x < t.length := by
          have := h; rw [hrw] at this; simpa using this
        have hind := ih hlt
        have hget : (a :: t).get ⟨searchsorted (a :: t) x, h⟩
            = t.get ⟨searchsorted t x, hlt⟩ := by
          have : (⟨searchsorted (a :: t) x, h⟩ : Fin (a :: t).length)
              = ⟨searchsorted t x + 1, by simpa using hlt⟩ := Fin.ext hrw
          rw [this, List.get_cons_succ]
        rw [hget]; exact hind

theorem searchsorted_mono (l : List ℚ) (x y : ℚ) (hxy : x ≤ y) :
    searchsorted l x ≤ searchsorted l y := by
  induction l with
  | nil => simp [searchsorted]
  | cons a t ih =>
      rw [searchsorted, searchsorted]
      by_cases hya : y ≤ a
      · rw [if_pos (le_trans hxy hya), if_pos hya]
      · rw [if_neg hya]
        by_cases hxa : x ≤ a
        · rw [if_pos hxa]; omega
        · rw [if_neg hxa]; exact Nat.succ_le_succ ih

theorem searchsorted_get_self (l : List ℚ) (hl : List.Pairwise (· < ·) l) :
    ∀ (k : ℕ) (hk : k < l.length), searchsorted l (l.get ⟨k, hk⟩) = k := by
  induction l with
  | nil => intro k hk; simp at hk
  | cons a t ih =>
      intro k hk
      rcases List.pairwise_cons.mp hl with ⟨ha, ht⟩
      cases k with
      | zero => simp [searchsorted]
      | succ j =>
          have hj : j < t.length := by simpa using hk
          have hmem : t.get ⟨j, hj⟩ ∈ t := List.get_mem t _ _
          have hna : ¬ (t.get ⟨j, hj⟩ ≤ a) := not_le.mpr (ha _ hmem)
          rw [show (a :: t).get ⟨j + 1, hk⟩ = t.get ⟨j, hj⟩ from rfl, searchsorted,
            if_neg hna, ih ht j hj]

/-- C7: back-test idempotence.  For every row of the current year's own
results table (aggregates strictly increasing when sorted ascending, as the
repair pass guarantees), inverting the table with `agg_to_atar_2025` at that
row's aggregate returns exactly that row's rank-score, so the back-test shift
is exactly 0 for every band. -/
theorem back_test_idempotent (aggs atars : List ℚ)
    (hlen : atars.length = aggs.length)
    (hmono : List.Chain' (· < ·) aggs)
    (k : ℕ) (hk : k < aggs.length) :
    agg_to_atar_2025 aggs atars (aggs.get ⟨k, hk⟩) =
      atars.get ⟨k, by rw [hlen]; exact hk⟩ := by
  have hp : List.Pairwise (· < ·) aggs := List.chain'_iff_pairwise.mp hmono
  have hpg := List.pairwise_iff_get.mp hp
  have hne : 0 < aggs.length := by omega
  have hne' : 0 < atars.length := by omega
  rw [agg_to_atar_2025]
  by_cases h0 : aggs.get ⟨k, hk⟩ ≤ aggs.headD 0
  · have hk0 : k = 0 := by
      by_contra hne0
      have hlt : aggs.get ⟨0, hne⟩ < aggs.get ⟨k, hk⟩ :=
        hpg ⟨0, hne⟩ ⟨k, hk⟩ (by simpa using Nat.pos_of_ne_zero hne0)
      rw [headD_eq_get aggs hne] at h0
      exact absurd h0 (not_le.mpr hlt)
    subst hk0
    rw [if_pos h0, headD_eq_get atars hne']
  · rw [if_neg h0]
    by_cases h1 : aggs.getLastD 0 ≤ aggs.get ⟨k, hk⟩
    · have hk1 : k = aggs.length - 1 := by
        by_contra hneq
        have hklt : k < aggs.length - 1 := by omega
        have hlt : aggs.get ⟨k, hk⟩ < aggs.get ⟨aggs.length - 1, by omega⟩ :=
          hpg ⟨k, hk⟩ ⟨aggs.length - 1, by omega⟩ (by simpa using hklt)
        rw [getLastD_eq_get aggs hne] at h1
        exact absurd h1 (not_le.mpr hlt)
      rw [if_pos h1, getLastD_eq_get atars hne']
      congr 1
      exact Fin.ext (by simp [hlen, hk1])
    · rw [if_neg h1]
      have hidx : searchsorted aggs (aggs.get ⟨k, hk⟩) = k :=
        searchsorted_get_self aggs hp k hk
      have hk1 : 1 ≤ k := by
        rcases Nat.eq_zero_or_pos k with rfl | h
        · exact absurd (le_of_eq (headD_eq_get aggs hne).symm) h0
        · exact h
      simp only [hidx]
      have hlo : k - 1 < aggs.length := by omega
      have hlo' : k - 1 < atars.length := by omega
      have hhi' : k < atars.length := by omega
      rw [getD_eq_get aggs (k - 1) hlo, getD_eq_get aggs k hk,
        getD_eq_get atars (k - 1) hlo', getD_eq_get atars k hhi']
      have hlt : aggs.get ⟨k - 1, hlo⟩ < aggs.get ⟨k, hk⟩ :=
        hpg ⟨k - 1, hlo⟩ ⟨k, hk⟩ (by simp; omega)
      have hfrac : (aggs.get ⟨k, hk⟩ - aggs.get ⟨k - 1, hlo⟩) /
          (aggs.get ⟨k, hk⟩ - aggs.get ⟨k - 1, hlo⟩) = 1 :=
        div_self (by linarith)
      rw [hfrac]
      ring

/-- Witness for C7 at a concrete three-row table: the middle row's aggregate 2
maps back to exactly its own rank-score 20. -/
theorem back_test_idempotent_witness :
    agg_to_atar_2025 [1, 2, 3] [10, 20, 30] 2 = 20 :=
  back_test_idempotent [1, 2, 3] [10, 20, 30] rfl
    (by norm_num [List.chain'_cons]) 1 (by norm_num)

theorem pairwise_le_get (l : List ℚ) (h : List.Pairwise (· ≤ ·) l)
    (i j : ℕ) (hi : i < l.length) (hj : j < l.length) (hij : i ≤ j) :
    l.get ⟨i, hi⟩ ≤ l.get ⟨j, hj⟩ := by
  rcases Nat.lt_or_ge i j with hlt | hge
  · exact List.pairwise_iff_get.mp h ⟨i, hi⟩ ⟨j, hj⟩ (by simpa using hlt)
  · have : i = j := by omega
    subst this
    exact le_refl _

theorem agg_to_atar_middle (aggs atars : List ℚ)
    (hlen : atars.length = aggs.length)
    (hp : List.Pairwise (· < ·) aggs)
    (hq : List.Pairwise (· ≤ ·) atars)
    (hne : 0 < aggs.length)
    (x : ℚ) (h0 : ¬ x ≤ aggs.headD 0) (h1 : ¬ aggs.getLastD 0 ≤ x) :
    1 ≤ searchsorted aggs x ∧ searchsorted aggs x < aggs.length ∧
    atars.getD (searchsorted aggs x - 1) 0 ≤ agg_to_atar_2025 aggs atars x ∧
    agg_to_atar_2025 aggs atars x ≤ atars.getD (searchsorted aggs x) 0 := by
  have hx_last : x ≤ aggs.get ⟨aggs.length - 1, by omega⟩ := by
    rw [getLastD_eq_get aggs hne] at h1
    exact le_of_lt (lt_of_not_le h1)
  have hidx_lt : searchsorted aggs x < aggs.length := by
    have := searchsorted_le_of_le aggs x (aggs.length - 1) (by omega) hx_last
    omega
  have hidx_pos : 1 ≤ searchsorted aggs x := by
    by_contra hc
    have hz : searchsorted aggs x = 0 := by omega
    have := le_get_searchsorted aggs x hidx_lt
    rw [headD_eq_get aggs hne] at h0
    exact h0 (le_trans this (le_of_eq (by congr 1; exact Fin.ext hz)))
  refine ⟨hidx_pos, hidx_lt, ?_, ?_⟩ <;>
  · have hlo : searchsorted aggs x - 1 < aggs.length := by omega
    have hlo' : searchsorted aggs x - 1 < atars.length := by omega
    have hhi' : searchsorted aggs x < atars.length := by omega
    have halo_lt : aggs.get ⟨searchsorted aggs x - 1, hlo⟩ < x :=
      get_lt_of_lt_searchsorted aggs x _ hlo (by omega)
    have hahi_ge : x ≤ aggs.get ⟨searchsorted aggs x, hidx_lt⟩ :=
      le_get_searchsorted aggs x hidx_lt
    have hD : aggs.get ⟨searchsorted aggs x - 1, hlo⟩ <
        aggs.get ⟨searchsorted aggs x, hidx_lt⟩ :=
      List.pairwise_iff_get.mp hp _ _ (by simp; omega)
    have hT : atars.get ⟨searchsorted aggs x - 1, hlo'⟩ ≤
        atars.get ⟨searchsorted aggs x, hhi'⟩ :=
      pairwise_le_get atars hq _ _ hlo' hhi' (by omega)
    rw [agg_to_atar_2025, if_neg h0, if_neg h1]
    simp only [getD_eq_get aggs _ hlo, getD_eq_get aggs _ hidx_lt,
      getD_eq_get atars _ hlo', getD_eq_get atars _ hhi']
    have hfrac0 : 0 ≤ (x - aggs.get ⟨searchsorted aggs x - 1, hlo⟩) /
        (aggs.get ⟨searchsorted aggs x, hidx_lt⟩ - aggs.get ⟨searchsorted aggs x - 1, hlo⟩) :=
      div_nonneg (by linarith) (by linarith)
    have hfrac1 : (x - aggs.get ⟨searchsorted aggs x - 1, hlo⟩) /
        (aggs.get ⟨searchsorted aggs x, hidx_lt⟩ - aggs.get ⟨searchsorted aggs x - 1, hlo⟩) ≤ 1 := by
      rw [div_le_one (by linarith)]
      linarith
    have hA := mul_nonneg hfrac0 (sub_nonneg.mpr hT)
    have hB := mul_le_mul_of_nonneg_right hfrac1 (sub_nonneg.mpr hT)
    linarith [hA, hB]

/-- C10 counterexample: with strictly increasing aggregates alone the inverse
lookup need not be monotone.  On the table with aggregates [0, 1, 2] and
rank-scores [0, 5, 1] (rank column not ordered), aggregate 1 maps to 5 while
the larger aggregate 2 maps to 1. -/
theorem agg_to_atar_not_monotone :
    List.Chain' (· < ·) [(0 : ℚ), 1, 2] ∧ (1 : ℚ) ≤ 2 ∧
    agg_to_atar_2025 [0, 1, 2] [0, 5, 1] 1 = 5 ∧
    agg_to_atar_2025 [0, 1, 2] [0, 5, 1] 2 = 1 ∧
    ¬ agg_to_atar_2025 [0, 1, 2] [0, 5, 1] 1 ≤ agg_to_atar_2025 [0, 1, 2] [0, 5, 1] 2 := by
  have h1 : agg_to_atar_2025 [0, 1, 2] [0, 5, 1] 1 = 5 := by
    norm_num [agg_to_atar_2025, searchsorted]
  have h2 : agg_to_atar_2025 [0, 1, 2] [0, 5, 1] 2 = 1 := by
    norm_num [agg_to_atar_2025]
  refine ⟨by norm_num [List.chain'_cons], by norm_num, h1, h2, ?_⟩
  rw [h1, h2]
  norm_num

/-- C10 amended: for a table whose aggregate column is strictly increasing and
whose rank-score column is non-decreasing — as the program's results table is,
on both counts — the inverse lookup `agg_to_atar_2025` is monotone
non-decreasing over all aggregates, its result always lies between the lowest
and the highest band's rank-score, every aggregate at or below the lowest
band's aggregate maps to the lowest band's rank-score, and every aggregate at
or above the highest band's aggregate maps to the highest band's rank-score.
(With strictly increasing aggregates alone, monotonicity fails: see the
counterexample.) -/
theorem agg_to_atar_monotone (aggs atars : List ℚ)
    (hne : aggs ≠ [])
    (hlen : atars.length = aggs.length)
    (haggs : List.Chain' (· < ·) aggs)
    (hatars : List.Chain' (· ≤ ·) atars) :
    (∀ x y, x ≤ y → agg_to_atar_2025 aggs atars x ≤ agg_to_atar_2025 aggs atars y) ∧
    (∀ x, atars.headD 0 ≤ agg_to_atar_2025 aggs atars x ∧
      agg_to_atar_2025 aggs atars x ≤ atars.getLastD 0) ∧
    (∀ x, x ≤ aggs.headD 0 → agg_to_atar_2025 aggs atars x = atars.headD 0) ∧
    (∀ x, aggs.getLastD 0 ≤ x → agg_to_atar_2025 aggs atars x = atars.getLastD 0) := by
  have hp : List.Pairwise (· < ·) aggs := List.chain'_iff_pairwise.mp haggs
  have hq : List.Pairwise (· ≤ ·) atars := List.chain'_iff_pairwise.mp hatars
  have hlen0 : 0 < aggs.length := List.length_pos.mpr hne
  have hlen0' : 0 < atars.length := by omega
  have hHL : atars.headD 0 ≤ atars.getLastD 0 := by
    rw [headD_eq_get atars hlen0', getLastD_eq_get atars hlen0']
    exact pairwise_le_get atars hq _ _ _ _ (by omega)
  have hHi : ∀ (i : ℕ) (hi : i < atars.length),
      atars.headD 0 ≤ atars.get ⟨i, hi⟩ ∧ atars.get ⟨i, hi⟩ ≤ atars.getLastD 0 := by
    intro i hi
    constructor
    · rw [headD_eq_get atars hlen0']
      exact pairwise_le_get atars hq _ _ _ _ (by omega)
    · rw [getLastD_eq_get atars hlen0']
      exact pairwise_le_get atars hq _ _ _ _ (by omega)
  have hclamp_low : ∀ x, x ≤ aggs.headD 0 →
      agg_to_atar_2025 aggs atars x = atars.headD 0 := by
    intro x hx
    rw [agg_to_atar_2025, if_pos hx]
  have hclamp_high : ∀ x, aggs.getLastD 0 ≤ x →
      agg_to_atar_2025 aggs atars x = atars.getLastD 0 := by
    intro x hx
    by_cases hx0 : x ≤ aggs.headD 0
    · have hlen1 : aggs.length = 1 := by
        by_contra hc
        have h2 : 0 < aggs.length - 1 := by omega
        have hltg : aggs.get ⟨0, hlen0⟩ < aggs.get ⟨aggs.length - 1, by omega⟩ :=
          List.pairwise_iff_get.mp hp _ _ (by simpa using h2)
        rw [headD_eq_get aggs hlen0] at hx0
        rw [getLastD_eq_get aggs hlen0] at hx
        linarith
      have hsingle : atars.headD 0 = atars.getLastD 0 := by
        rw [headD_eq_get atars hlen0', getLastD_eq_get atars hlen0']
        congr 1
        exact Fin.ext (by simp; omega)
      rw [agg_to_atar_2025, if_pos hx0, hsingle]
    · rw [agg_to_atar_2025, if_neg hx0, if_pos hx]
  have hbounds : ∀ x, atars.headD 0 ≤ agg_to_atar_2025 aggs atars x ∧
      agg_to_atar_2025 aggs atars x ≤ atars.getLastD 0 := by
    intro x
    by_cases hx0 : x ≤ aggs.headD 0
    · rw [hclamp_low x hx0]
      exact ⟨le_refl _, hHL⟩
    by_cases hx1 : aggs.getLastD 0 ≤ x
    · rw [hclamp_high x hx1]
      exact ⟨hHL, le_refl _⟩
    obtain ⟨hi1, hi2, hlow, hhigh⟩ := agg_to_atar_middle aggs atars hlen hp hq hlen0 x hx0 hx1
    have hlo' : searchsorted aggs x - 1 < atars.length := by omega
    have hhi' : searchsorted aggs x < atars.length := by omega
    constructor
    · refine le_trans ?_ hlow
      rw [getD_eq_get atars _ hlo']
      exact (hHi _ hlo').1
    · refine le_trans hhigh ?_
      rw [getD_eq_get atars _ hhi']
      exact (hHi _ hhi').2
  refine ⟨?_, hbounds, hclamp_low, hclamp_high⟩
  intro x y hxy
  by_cases hx0 : x ≤ aggs.headD 0
  · rw [hclamp_low x hx0]
    exact (hbounds y).1
  by_cases hy1 : aggs.getLastD 0 ≤ y
  · rw [hclamp_high y hy1]
    exact (hbounds x).2
  have hy0 : ¬ y ≤ aggs.headD 0 := fun h => hx0 (le_trans hxy h)
  have hx1 : ¬ aggs.getLastD 0 ≤ x := fun h => hy1 (le_trans h hxy)
  obtain ⟨hxi1, hxi2, hxlow, hxhigh⟩ := agg_to_atar_middle aggs atars hlen hp hq hlen0 x hx0 hx1
  obtain ⟨hyi1, hyi2, hylow, hyhigh⟩ := agg_to_atar_middle aggs atars hlen hp hq hlen0 y hy0 hy1
  rcases Nat.lt_or_ge (searchsorted aggs x) (searchsorted aggs y) with hlt | hge
  · refine le_trans hxhigh (le_trans ?_ hylow)
    rw [getD_eq_get atars _ (show searchsorted aggs x < atars.length by omega),
      getD_eq_get atars _ (show searchsorted aggs y - 1 < atars.length by omega)]
    exact pairwise_le_get atars hq _ _ _ _ (by omega)
  · have heq : searchsorted aggs x = searchsorted aggs y :=
      Nat.le_antisymm (searchsorted_mono aggs x y hxy) hge
    rw [agg_to_atar_2025, if_neg hx0, if_neg hx1, agg_to_atar_2025, if_neg hy0, if_neg hy1,
      ← heq]
    have hlo : searchsorted aggs x - 1 < aggs.length := by omega
    have hlo' : searchsorted aggs x - 1 < atars.length := by omega
    have hhi' : searchsorted aggs x < atars.length := by omega
    simp only [getD_eq_get aggs _ hlo, getD_eq_get aggs _ hxi2,
      getD_eq_get atars _ hlo', getD_eq_get atars _ hhi']
    have hD : aggs.get ⟨searchsorted aggs x - 1, hlo⟩ < aggs.get ⟨searchsorted aggs x, hxi2⟩ :=
      List.pairwise_iff_get.mp hp _ _ (by simp; omega)
    have hT : atars.get ⟨searchsorted aggs x - 1, hlo'⟩ ≤
        atars.get ⟨searchsorted aggs x, hhi'⟩ :=
      pairwise_le_get atars hq _ _ _ _ (by omega)
    have hfr : (x - aggs.get ⟨searchsorted aggs x - 1, hlo⟩) /
        (aggs.get ⟨searchsorted aggs x, hxi2⟩ - aggs.get ⟨searchsorted aggs x - 1, hlo⟩) ≤
        (y - aggs.get ⟨searchsorted aggs x - 1, hlo⟩) /
        (aggs.get ⟨searchsorted aggs x, hxi2⟩ - aggs.get ⟨searchsorted aggs x - 1, hlo⟩) := by
      apply div_le_div_of_nonneg_right (by linarith) (by linarith)
    have hmul := mul_le_mul_of_nonneg_right hfr (sub_nonneg.mpr hT)
    linarith

/-- Witness for C10 at a concrete two-band table with both columns
increasing. -/
theorem agg_to_atar_monotone_witness :
    (∀ x y, x ≤ y → agg_to_atar_2025 [1, 2] [5, 6] x ≤ agg_to_atar_2025 [1, 2] [5, 6] y) ∧
    (∀ x, ([5, 6] : List ℚ).headD 0 ≤ agg_to_atar_2025 [1, 2] [5, 6] x ∧
      agg_to_atar_2025 [1, 2] [5, 6] x ≤ ([5, 6] : List ℚ).getLastD 0) ∧
    (∀ x, x ≤ ([1, 2] : List ℚ).headD 0 →
      agg_to_atar_2025 [1, 2] [5, 6] x = ([5, 6] : List ℚ).headD 0) ∧
    (∀ x, ([1, 2] : List ℚ).getLastD 0 ≤ x →
      agg_to_atar_2025 [1, 2] [5, 6] x = ([5, 6] : List ℚ).getLastD 0) :=
  agg_to_atar_monotone [1, 2] [5, 6] (by simp) rfl
    (by norm_num [List.chain'_cons]) (by norm_num [List.chain'_cons])

theorem sort_desc_eq_of_perm (l l' : List ℚ) (h : l.Perm l') : sort_desc l = sort_desc l' :=
  List.eq_of_perm_of_sorted
    ((List.perm_insertionSort _ l).trans (h.trans (List.perm_insertionSort _ l').symm))
    (List.sorted_insertionSort _ l) (List.sorted_insertionSort _ l')

theorem sum_take_all_zero (l : List ℚ) (h : ∀ x ∈ l, x = 0) (k : ℕ) :
    (l.take k).sum = 0 :=
  List.sum_eq_zero fun x hx => h x (List.take_subset k l hx)

theorem takeSum_orderedInsert_zero (s : List ℚ) :
    ∀ (k : ℕ), List.Sorted (fun a b => b ≤ a) s → (∀ x ∈ s, 0 ≤ x) →
    ((List.orderedInsert (fun a b => b ≤ a) 0 s).take k).sum = (s.take k).sum := by
  induction s with
  | nil => intro k _ _; cases k <;> simp [List.orderedInsert]
  | cons a s ih =>
      intro k hs hnn
      rw [List.orderedInsert]
      by_cases h : a ≤ 0
      · have ha0 : a = 0 := le_antisymm h (hnn a (List.mem_cons_self a s))
        rw [if_pos h]
        subst ha0
        have hz : ∀ x ∈ (0 : ℚ) :: s, x = 0 := by
          intro x hx
          rcases List.mem_cons.mp hx with rfl | hx'
          · rfl
          · exact le_antisymm ((List.sorted_cons.mp hs).1 x hx')
              (hnn x (List.mem_cons_of_mem _ hx'))
        rw [sum_take_all_zero ((0 : ℚ) :: s) hz k,
          sum_take_all_zero ((0 : ℚ) :: (0 : ℚ) :: s) (by
            intro x hx
            rcases List.mem_cons.mp hx with rfl | hx'
            · rfl
            · exact hz x hx') k]
      · rw [if_neg h]
        cases k with
        | zero => simp
        | succ k =>
            rw [List.take_succ_cons, List.take_succ_cons, List.sum_cons, List.sum_cons,
              ih k (List.sorted_cons.mp hs).2 (fun x hx => hnn x (List.mem_cons_of_mem _ hx))]

theorem topSum_cons_zero (k : ℕ) (l : List ℚ) (hnn : ∀ x ∈ l, 0 ≤ x) :
    ((sort_desc (0 :: l)).take k).sum = ((sort_desc l).take k).sum := by
  show ((List.orderedInsert _ 0 (List.insertionSort _ l)).take k).sum = _
  exact takeSum_orderedInsert_zero (List.insertionSort _ l) k
    (List.sorted_insertionSort _ l)
    (fun x hx => hnn x ((List.perm_insertionSort _ l).mem_iff.mp hx))

theorem topSum_append_zeros (k : ℕ) (z : List ℚ) :
    ∀ (l : List ℚ), (∀ x ∈ l, 0 ≤ x) → (∀ x ∈ z, x = 0) →
    ((sort_desc (l ++ z)).take k).sum = ((sort_desc l).take k).sum := by
  induction z with
  | nil => intro l _ _; rw [List.append_nil]
  | cons a z ih =>
      intro l hnn hz
      have ha : a = 0 := hz a (List.mem_cons_self a z)
      subst ha
      have hnn' : ∀ x ∈ l ++ z, 0 ≤ x := by
        intro x hx
        rcases List.mem_append.mp hx with h | h
        · exact hnn x h
        · exact le_of_eq (hz x (List.mem_cons_of_mem _ h)).symm
      rw [sort_desc_eq_of_perm _ _ (@List.perm_middle ℚ 0 l z),
        topSum_cons_zero k (l ++ z) hnn',
        ih l hnn (fun x hx => hz x (List.mem_cons_of_mem _ hx))]

theorem eval_scaling_poly_nonneg (subj : SimSubject) (raw_pct : ℚ) :
    0 ≤ eval_scaling_poly subj raw_pct := by
  rw [eval_scaling_poly]
  split
  · exact le_refl 0
  · exact le_max_left 0 _

theorem getD_map_range201 (f : ℕ → ℚ × ℚ) (i : ℕ) (hi : i < 201) :
    ((List.range 201).map f).getD i (0, 0) = f i := by
  rw [List.getD_eq_getElem _ _ (by simpa using hi)]
  simp

theorem simulate_at_eq_top_five (subjects : List SimSubject) (raw_pct : ℚ) :
    simulate_at subjects raw_pct = top_five_contribution_sum subjects raw_pct := by
  rw [simulate_at, top_five_contribution_sum]
  have hperm : (subjects.map (fun s => eval_scaling_poly s raw_pct)).Perm
      (((subjects.filter (fun s => s.min_x ≤ raw_pct)).map
          (fun s => eval_scaling_poly s raw_pct)) ++
        ((subjects.filter (fun s => !decide (s.min_x ≤ raw_pct))).map
          (fun s => eval_scaling_poly s raw_pct))) := by
    have h1 := (List.filter_append_perm (fun s => decide (s.min_x ≤ raw_pct)) subjects).symm
    have h2 := h1.map (fun s => eval_scaling_poly s raw_pct)
    rw [List.map_append] at h2
    exact h2
  rw [sort_desc_eq_of_perm _ _ hperm]
  refine (topSum_append_zeros 5 _ _ ?_ ?_).symm
  · intro x hx
    rcases List.mem_map.mp hx with ⟨s, _, rfl⟩
    exact eval_scaling_poly_nonneg s raw_pct
  · intro x hx
    rcases List.mem_map.mp hx with ⟨s, hs, rfl⟩
    have hlt : raw_pct < s.min_x := by
      have := (List.mem_filter.mp hs).2
      simp only [Bool.not_eq_true', decide_eq_false_iff_not, not_le] at this
      exact this
    rw [eval_scaling_poly, if_pos hlt]

/-- C8: at every raw-score grid point 0.0, 0.5, ..., 100.0 the simulated
aggregate equals the sum of the 5 largest per-subject contributions over all
subjects with valid polynomials, where a subject's contribution is 0 when the
raw score is below that subject's minimum raw score and otherwise is the
subject's quartic at the raw score clamped into [0, that subject's maximum
scaled score]. -/
theorem simulated_aggregate_top_five (subjects : List SimSubject)
    (i : ℕ) (hi : i < 201) :
    (simulate_aggregate_curve subjects).getD i (0, 0) =
      ((i : ℚ) * (1 / 2), top_five_contribution_sum subjects ((i : ℚ) * (1 / 2))) := by
  rw [simulate_aggregate_curve, getD_map_range201 _ i hi, simulate_at_eq_top_five]

/-- Witness for C8 at grid point 3 (raw score 1.5) with two concrete
subjects. -/
theorem simulated_aggregate_top_five_witness :
    (simulate_aggregate_curve demo_sim_subjects).getD 3 (0, 0) =
      (((3 : ℕ) : ℚ) * (1 / 2),
        top_five_contribution_sum demo_sim_subjects (((3 : ℕ) : ℚ) * (1 / 2))) :=
  simulated_aggregate_top_five demo_sim_subjects 3 (by norm_num)

theorem compute_polynomials_placement (F : Fitter) (s : Subject) :
    (compute_polynomials F s).subject_type = s.subject_type ∧
    (compute_polynomials F s).min_x = s.min_x ∧
    (compute_polynomials F s).pzx = s.pzx ∧
    (compute_polynomials F s).pzy = s.pzy ∧
    (compute_polynomials F s).p25x = s.p25x ∧
    (compute_polynomials F s).p25y = s.p25y := by
  rw [compute_polynomials]
  split
  · exact ⟨rfl, rfl, rfl, rfl, rfl, rfl⟩
  · exact ⟨rfl, rfl, rfl, rfl, rfl, rfl⟩

theorem scan_fold_none {α β : Type} (valid : α → Bool) (errf : α → ℚ) (payload : α → β) :
    ∀ l : List α, (∀ c ∈ l, valid c = false) →
      scan_fold valid errf payload l = none := by
  intro l
  induction l with
  | nil => intro _; rfl
  | cons a t ih =>
      intro h
      have ha : valid a = false := h a (List.mem_cons_self a t)
      show List.foldl _ (scan_step valid errf payload none a) t = none
      rw [scan_step, ha]
      show List.foldl _ none t = none
      exact ih (fun c hc => h c (List.mem_cons_of_mem a hc))

theorem scan_fold_some_spec {α β : Type} (valid : α → Bool) (errf : α → ℚ)
    (payload : α → β) :
    ∀ (l : List α) (e : ℚ) (b : β) (e' : ℚ) (b' : β),
      l.foldl (scan_step valid errf payload) (some (e, b)) = some (e', b') →
      e' ≤ e ∧
      ((e' = e ∧ b' = b ∧ ∀ c ∈ l, valid c = true → e ≤ errf c) ∨
       (∃ l1 c l2, l = l1 ++ c :: l2 ∧ valid c = true ∧ errf c = e' ∧ payload c = b' ∧
         e' < e ∧ (∀ x ∈ l1, valid x = true → e' < errf x) ∧
         (∀ x ∈ l2, valid x = true → e' ≤ errf x))) := by
  intro l
  induction l with
  | nil =>
      intro e b e' b' h
      simp only [List.foldl_nil, Option.some.injEq, Prod.mk.injEq] at h
      exact ⟨le_of_eq h.1.symm, Or.inl ⟨h.1.symm, h.2.symm, fun c hc => absurd hc (List.not_mem_nil c)⟩⟩
  | cons a t ih =>
      intro e b e' b' h
      rw [List.foldl_cons] at h
      by_cases hva : valid a = true
      · by_cases herr : errf a < e
        · have hstep : scan_step valid errf payload (some (e, b)) a
              = some (errf a, payload a) := by
            rw [scan_step, if_pos hva]
            exact if_pos herr
          rw [hstep] at h
          obtain ⟨hle, hcase⟩ := ih (errf a) (payload a) e' b' h
          refine ⟨le_trans hle (le_of_lt herr), Or.inr ?_⟩
          rcases hcase with ⟨he, hb, hall⟩ | ⟨t1, c, t2, hsplit, hvc, hec, hpc, hlt, h1, h2⟩
          · exact ⟨[], a, t, rfl, hva, he.symm ▸ rfl, hb.symm ▸ rfl,
              lt_of_le_of_lt hle herr,
              fun x hx => absurd hx (List.not_mem_nil x),
              fun x hx hvx => he ▸ hall x hx hvx⟩
          · refine ⟨a :: t1, c, t2, by rw [hsplit]; rfl, hvc, hec, hpc,
              lt_trans hlt herr, ?_, h2⟩
            intro x hx hvx
            rcases List.mem_cons.mp hx with rfl | hx'
            · exact hlt
            · exact h1 x hx' hvx
        · have hstep : scan_step valid errf payload (some (e, b)) a = some (e, b) := by
            rw [scan_step, if_pos hva]
            exact if_neg herr
          rw [hstep] at h
          obtain ⟨hle, hcase⟩ := ih e b e' b' h
          refine ⟨hle, ?_⟩
          rcases hcase with ⟨he, hb, hall⟩ | ⟨t1, c, t2, hsplit, hvc, hec, hpc, hlt, h1, h2⟩
          · refine Or.inl ⟨he, hb, ?_⟩
            intro x hx hvx
            rcases List.mem_cons.mp hx with rfl | hx'
            · exact le_of_not_lt herr
            · exact hall x hx' hvx
          · refine Or.inr ⟨a :: t1, c, t2, by rw [hsplit]; rfl, hvc, hec, hpc, hlt, ?_, h2⟩
            intro x hx hvx
            rcases List.mem_cons.mp hx with rfl | hx'
            · exact lt_of_lt_of_le hlt (le_of_not_lt herr)
            · exact h1 x hx' hvx
      · have hstep : scan_step valid errf payload (some (e, b)) a = some (e, b) := by
          rw [scan_step, if_neg hva]
        rw [hstep] at h
        obtain ⟨hle, hcase⟩ := ih e b e' b' h
        refine ⟨hle, ?_⟩
        rcases hcase with ⟨he, hb, hall⟩ | ⟨t1, c, t2, hsplit, hvc, hec, hpc, hlt, h1, h2⟩
        · refine Or.inl ⟨he, hb, ?_⟩
          intro x hx hvx
          rcases List.mem_cons.mp hx with rfl | hx'
          · exact absurd hvx hva
          · exact hall x hx' hvx
        · refine Or.inr ⟨a :: t1, c, t2, by rw [hsplit]; rfl, hvc, hec, hpc, hlt, ?_, h2⟩
          intro x hx hvx
          rcases List.mem_cons.mp hx with rfl | hx'
          · exact absurd hvx hva
          · exact h1 x hx' hvx

theorem scan_fold_first_argmin {α β : Type} (valid : α → Bool) (errf : α → ℚ)
    (payload : α → β) :
    ∀ (l : List α) (e' : ℚ) (b' : β),
      scan_fold valid errf payload l = some (e', b') →
      ∃ l1 c l2, l = l1 ++ c :: l2 ∧ valid c = true ∧ errf c = e' ∧ payload c = b' ∧
        (∀ x ∈ l1, valid x = true → e' < errf x) ∧
        (∀ x ∈ l2, valid x = true → e' ≤ errf x) := by
  intro l
  induction l with
  | nil => intro e' b' h; exact absurd h (by rw [scan_fold]; simp)
  | cons a t ih =>
      intro e' b' h
      rw [scan_fold, List.foldl_cons] at h
      by_cases hva : valid a = true
      · have hstep : scan_step valid errf payload none a = some (errf a, payload a) := by
          rw [scan_step]
          simp [hva]
        rw [hstep] at h
        obtain ⟨hle, hcase⟩ := scan_fold_some_spec valid errf payload t (errf a) (payload a) e' b' h
        rcases hcase with ⟨he, hb, hall⟩ | ⟨t1, c, t2, hsplit, hvc, hec, hpc, hlt, h1, h2⟩
        · exact ⟨[], a, t, rfl, hva, he.symm ▸ rfl, hb.symm ▸ rfl,
            fun x hx => absurd hx (List.not_mem_nil x),
            fun x hx hvx => he ▸ hall x hx hvx⟩
        · refine ⟨a :: t1, c, t2, by rw [hsplit]; rfl, hvc, hec, hpc, ?_, h2⟩
          intro x hx hvx
          rcases List.mem_cons.mp hx with rfl | hx'
          · exact hlt
          · exact h1 x hx' hvx
      · have hstep : scan_step valid errf payload none a = none := by
          rw [scan_step, if_neg hva]
        rw [hstep] at h
        obtain ⟨t1, c, t2, hsplit, hvc, hec, hpc, h1, h2⟩ := ih e' b' h
        refine ⟨a :: t1, c, t2, by rw [hsplit]; rfl, hvc, hec, hpc, ?_, h2⟩
        intro x hx hvx
        rcases List.mem_cons.mp hx with rfl | hx'
        · exact absurd hvx (by rw [Bool.not_eq_true] at hva ⊢; exact hva ▸ (by simp))
        · exact h1 x hx' hvx

theorem auto_optimize_success_split (F : Fitter) (s : Subject)
    (hs : (auto_optimize_subject F s).1 = true) :
    s.subject_type = SubjectType.general ∧ s.p25x ≠ 0 ∧
    0 ≤ s.p25x - 2 * pdf_min_gap s.p25x s.p50x s.p75x s.p90x s.p99x ∧
    1 / 10 < s.p25y * (95 / 100) ∧
    ∃ l1 c l2, cand_grid = l1 ++ c :: l2 ∧ cand_monotonic F s c = true ∧
      auto_optimize_subject F s = (true, compute_polynomials F
        { s with min_x := cand_mx s c.1, pzx := cand_pzx s c.1,
                 pzy := cand_pzy s c.2, min_y := 0 }) ∧
      (∀ x ∈ l1, cand_monotonic F s x = true → cand_err F s c < cand_err F s x) ∧
      (∀ x ∈ l2, cand_monotonic F s x = true → cand_err F s c ≤ cand_err F s x) := by
  rw [auto_optimize_subject] at hs
  by_cases h1 : s.subject_type ≠ SubjectType.general ∨ s.p25x = 0
  · rw [if_pos h1] at hs
    exact absurd hs (by simp)
  rw [if_neg h1] at hs
  push_neg at h1
  by_cases h2 : s.p25x - 2 * pdf_min_gap s.p25x s.p50x s.p75x s.p90x s.p99x < 0
  · rw [if_pos h2] at hs
    exact absurd hs (by simp)
  rw [if_neg h2] at hs
  by_cases h3 : s.p25y * (95 / 100) ≤ 1 / 10
  · rw [if_pos h3] at hs
    exact absurd hs (by simp)
  rw [if_neg h3] at hs
  refine ⟨h1.1, h1.2, le_of_not_lt h2, lt_of_not_le h3, ?_⟩
  cases hfold : scan_fold (cand_monotonic F s) (cand_err F s) (cand_payload s) cand_grid with
  | none =>
      rw [hfold] at hs
      exact absurd hs (by simp)
  | some v =>
      obtain ⟨e, mx, pzx, pzy⟩ := v
      obtain ⟨l1, c, l2, hsplit, hvc, hec, hpc, hl1, hl2⟩ :=
        scan_fold_first_argmin _ _ _ cand_grid e (mx, pzx, pzy) hfold
      have hpc1 : cand_mx s c.1 = mx := congrArg Prod.fst hpc
      have hpc2 : cand_pzx s c.1 = pzx := congrArg Prod.fst (congrArg Prod.snd hpc)
      have hpc3 : cand_pzy s c.2 = pzy := congrArg Prod.snd (congrArg Prod.snd hpc)
      refine ⟨l1, c, l2, hsplit, hvc, ?_, ?_, ?_⟩
      · rw [auto_optimize_subject, if_neg (by push_neg; exact h1), if_neg h2, if_neg h3, hfold]
        rw [hpc1, hpc2, hpc3]
      · intro x hx hvx
        rw [hec]
        exact hl1 x hx hvx
      · intro x hx hvx
        rw [hec]
        exact hl2 x hx hvx

/-- C3: for every general subject record, the boundary optimizer mutates the
record only when it returns True: whenever it returns False — in particular
when the Min.x search space is empty (`p25x - 2*min_gap < 0`), when the
LowerBoundary.y range is empty (`pzy_lo >= pzy_hi`), or when no grid candidate
passes the sampled-derivative monotonicity check — it returns False as a value
(no exception) and every field of the record is left unchanged. -/
theorem auto_optimize_failure_keeps_subject (F : Fitter) (s : Subject) :
    ((auto_optimize_subject F s).1 = false → (auto_optimize_subject F s).2 = s) ∧
    (s.subject_type = SubjectType.general → s.p25x ≠ 0 →
      s.p25x - 2 * pdf_min_gap s.p25x s.p50x s.p75x s.p90x s.p99x < 0 →
      auto_optimize_subject F s = (false, s)) ∧
    (s.subject_type = SubjectType.general → s.p25x ≠ 0 →
      s.p25y * (95 / 100) ≤ 1 / 10 →
      auto_optimize_subject F s = (false, s)) ∧
    ((∀ c ∈ cand_grid, cand_monotonic F s c = false) →
      (auto_optimize_subject F s).1 = false) := by
  rw [auto_optimize_subject]
  by_cases h1 : s.subject_type ≠ SubjectType.general ∨ s.p25x = 0
  · rw [if_pos h1]
    exact ⟨fun _ => rfl, fun _ _ _ => rfl, fun _ _ _ => rfl, fun _ => rfl⟩
  rw [if_neg h1]
  by_cases h2 : s.p25x - 2 * pdf_min_gap s.p25x s.p50x s.p75x s.p90x s.p99x < 0
  · rw [if_pos h2]
    exact ⟨fun _ => rfl, fun _ _ _ => rfl, fun _ _ _ => rfl, fun _ => rfl⟩
  rw [if_neg h2]
  by_cases h3 : s.p25y * (95 / 100) ≤ 1 / 10
  · rw [if_pos h3]
    exact ⟨fun _ => rfl, fun _ _ _ => rfl, fun _ _ _ => rfl, fun _ => rfl⟩
  rw [if_neg h3]
  cases hfold : scan_fold (cand_monotonic F s) (cand_err F s) (cand_payload s) cand_grid with
  | none =>
      exact ⟨fun _ => rfl, fun _ _ h => absurd h h2, fun _ _ h => absurd h h3, fun _ => rfl⟩
  | some v =>
      obtain ⟨e, mx, pzx, pzy⟩ := v
      refine ⟨?_, fun _ _ h => absurd h h2, fun _ _ h => absurd h h3, ?_⟩
      · intro h
        exact absurd h (by simp)
      · intro hall
        rw [scan_fold_none _ _ _ cand_grid hall] at hfold
        exact absurd hfold (by simp)

/-- Witness for C3: a general subject whose search space collapses
(`p25x - 2*min_gap = -1 < 0`) is returned unchanged with result False. -/
theorem auto_optimize_failure_keeps_subject_witness :
    auto_optimize_subject zero_fitter empty_space_subject = (false, empty_space_subject) :=
  (auto_optimize_failure_keeps_subject zero_fitter empty_space_subject).2.1 rfl
    (by norm_num [empty_space_subject])
    (by norm_num [empty_space_subject, pdf_min_gap, min_def, max_def])

theorem foldl_scan_some {α β : Type} (valid : α → Bool) (errf : α → ℚ) (payload : α → β) :
    ∀ (l : List α) (e : ℚ) (b : β), ∃ e' b',
      l.foldl (scan_step valid errf payload) (some (e, b)) = some (e', b') := by
  intro l
  induction l with
  | nil => intro e b; exact ⟨e, b, rfl⟩
  | cons a t ih =>
      intro e b
      rw [List.foldl_cons]
      by_cases hva : valid a = true
      · by_cases herr : errf a < e
        · have : scan_step valid errf payload (some (e, b)) a = some (errf a, payload a) := by
            rw [scan_step, if_pos hva]
            exact if_pos herr
          rw [this]
          exact ih (errf a) (payload a)
        · have : scan_step valid errf payload (some (e, b)) a = some (e, b) := by
            rw [scan_step, if_pos hva]
            exact if_neg herr
          rw [this]
          exact ih e b
      · have : scan_step valid errf payload (some (e, b)) a = some (e, b) := by
          rw [scan_step, if_neg hva]
        rw [this]
        exact ih e b

theorem scan_fold_some_of_mem {α β : Type} (valid : α → Bool) (errf : α → ℚ)
    (payload : α → β) :
    ∀ (l : List α) (c : α), c ∈ l → valid c = true →
      ∃ e' b', scan_fold valid errf payload l = some (e', b') := by
  intro l
  induction l with
  | nil => intro c hc; exact absurd hc (List.not_mem_nil c)
  | cons a t ih =>
      intro c hc hvc
      rw [scan_fold, List.foldl_cons]
      by_cases hva : valid a = true
      · have : scan_step valid errf payload none a = some (errf a, payload a) := by
          rw [scan_step]
          simp [hva]
        rw [this]
        exact foldl_scan_some valid errf payload t (errf a) (payload a)
      · have hstep : scan_step valid errf payload none a = none := by
          rw [scan_step, if_neg hva]
        rw [hstep]
        rcases List.mem_cons.mp hc with rfl | hc'
        · exact absurd hvc hva
        · exact ih c hc' hvc

theorem mem_cand_grid_00 : ((0, 0) : ℕ × ℕ) ∈ cand_grid := by
  rw [cand_grid, List.mem_flatMap]
  exact ⟨0, List.mem_range.mpr (by norm_num),
    List.mem_map.mpr ⟨0, List.mem_range.mpr (by norm_num), rfl⟩⟩

theorem const5_monotonic (s : Subject) (c : ℕ × ℕ) :
    cand_monotonic const5_fitter s c = true := by
  rw [cand_monotonic, List.all_eq_true]
  intro t _
  simp only [decide_eq_true_eq, quartic_deriv, cand_fit, const5_fitter]
  norm_num

theorem auto_optimize_demo_succeeds :
    (auto_optimize_subject const5_fitter demo_subject).1 = true := by
  rw [auto_optimize_subject]
  rw [if_neg (by norm_num [demo_subject] :
    ¬ (demo_subject.subject_type ≠ SubjectType.general ∨ demo_subject.p25x = 0))]
  rw [if_neg (by norm_num [demo_subject, pdf_min_gap, min_def, max_def] :
    ¬ (demo_subject.p25x - 2 * pdf_min_gap demo_subject.p25x demo_subject.p50x
        demo_subject.p75x demo_subject.p90x demo_subject.p99x < 0))]
  rw [if_neg (by norm_num [demo_subject] :
    ¬ (demo_subject.p25y * (95 / 100) ≤ 1 / 10))]
  obtain ⟨e, b, hfold⟩ := scan_fold_some_of_mem (cand_monotonic const5_fitter demo_subject)
    (cand_err const5_fitter demo_subject) (cand_payload demo_subject) cand_grid (0, 0)
    mem_cand_grid_00 (const5_monotonic demo_subject (0, 0))
  obtain ⟨mx, pzx, pzy⟩ := b
  rw [hfold]

/-- C4: when the boundary optimizer succeeds, the `(Min.x, LowerBoundary.y)`
it installs comes from a cell of its deterministic 41-by-31 grid scan that
passes the 51-point sampled-derivative monotonicity check, has the minimum
maximum-absolute-residual over the 8 anchors among all passing cells, and is
the first such cell in scan order: every passing cell scanned before it has
strictly larger error. -/
theorem auto_optimize_first_argmin (F : Fitter) (s : Subject)
    (hs : (auto_optimize_subject F s).1 = true) :
    cand_grid.length = 41 * 31 ∧
    ∃ l1 c l2, cand_grid = l1 ++ c :: l2 ∧ cand_monotonic F s c = true ∧
      (auto_optimize_subject F s).2.min_x = cand_mx s c.1 ∧
      (auto_optimize_subject F s).2.pzx = cand_pzx s c.1 ∧
      (auto_optimize_subject F s).2.pzy = cand_pzy s c.2 ∧
      (∀ x ∈ l1, cand_monotonic F s x = true → cand_err F s c < cand_err F s x) ∧
      (∀ x ∈ cand_grid, cand_monotonic F s x = true →
        cand_err F s c ≤ cand_err F s x) := by
  obtain ⟨-, -, -, -, l1, c, l2, hsplit, hvc, hres, hl1, hl2⟩ :=
    auto_optimize_success_split F s hs
  have hlen : cand_grid.length = 41 * 31 := by
    rw [cand_grid, List.length_flatMap]
    have h : (List.map (List.length ∘ fun mi => List.map (fun pyi => (mi, pyi)) (List.range 31))
        (List.range 41)) = List.map (fun _ => 31) (List.range 41) := by
      apply List.map_congr_left
      intro a _
      simp
    rw [h, List.map_const', List.sum_replicate]
    simp
  refine ⟨hlen, l1, c, l2, hsplit, hvc, ?_, ?_, ?_, hl1, ?_⟩
  · rw [hres]
    exact (compute_polynomials_placement F _).2.1
  · rw [hres]
    exact (compute_polynomials_placement F _).2.2.1
  · rw [hres]
    exact (compute_polynomials_placement F _).2.2.2.1
  · intro x hx hvx
    rw [hsplit] at hx
    rcases List.mem_append.mp hx with h | h
    · exact le_of_lt (hl1 x h hvx)
    · rcases List.mem_cons.mp h with rfl | h'
      · exact le_refl _
      · exact hl2 x h' hvx

/-- Witness for C4: under the constant-5 fitter every cell of
`demo_subject`'s grid passes the monotonicity check with the same error, and
the optimizer succeeds, so the theorem's conclusion holds at this concrete
input. -/
theorem auto_optimize_first_argmin_witness :
    cand_grid.length = 41 * 31 ∧
    ∃ l1 c l2, cand_grid = l1 ++ c :: l2 ∧
      cand_monotonic const5_fitter demo_subject c = true ∧
      (auto_optimize_subject const5_fitter demo_subject).2.min_x =
        cand_mx demo_subject c.1 ∧
      (auto_optimize_subject const5_fitter demo_subject).2.pzx =
        cand_pzx demo_subject c.1 ∧
      (auto_optimize_subject const5_fitter demo_subject).2.pzy =
        cand_pzy demo_subject c.2 ∧
      (∀ x ∈ l1, cand_monotonic const5_fitter demo_subject x = true →
        cand_err const5_fitter demo_subject c < cand_err const5_fitter demo_subject x) ∧
      (∀ x ∈ cand_grid, cand_monotonic const5_fitter demo_subject x = true →
        cand_err const5_fitter demo_subject c ≤ cand_err const5_fitter demo_subject x) :=
  auto_optimize_first_argmin const5_fitter demo_subject auto_optimize_demo_succeeds

/-- C5 counterexample: the batch builder `process_general_subject` places the
English row's LowerBoundary at PZX = 0.75 * 61 = 45.75, while the exact
midpoint of Min.x = 10 and P25.x = 61 is 35.5. -/
theorem lower_boundary_midpoint_counterexample :
    english_row.pzx = 45.75 ∧ english_row.min_x = 10 ∧ english_row.p25x = 61 ∧
    english_row.pzx ≠ (english_row.min_x + english_row.p25x) / 2 := by
  have h1 : english_row.pzx = round2 ((3 / 4) * 61) := rfl
  have h2 : round2 ((3 / 4) * 61 : ℚ) = 45.75 := by norm_num [round2, round_eq]
  have h3 : english_row.min_x = 10 := rfl
  have h4 : english_row.p25x = 61 := rfl
  refine ⟨h1.trans h2, h3, h4, ?_⟩
  rw [h1, h2, h3, h4]
  norm_num

/-- C5 amended: in the interactive application the LowerBoundary anchor's x is
always the exact midpoint of Min.x and P25.x — both when the curve is built by
`build_general` and after any re-placement by a successful
`auto_optimize_subject`.  The batch builder `process_general_subject` of
`build_course_scales_2025.py` instead uses `PZX = 0.75 * P25X`, which agrees
with the midpoint only when P25X = 20: see the counterexample. -/
theorem lower_boundary_midpoint :
    (∀ (F : Fitter) (p25x p50x p75x p90x p99x p25y p50y p75y p90y p99y : ℚ),
      (build_general F p25x p50x p75x p90x p99x p25y p50y p75y p90y p99y).pzx =
        ((build_general F p25x p50x p75x p90x p99x p25y p50y p75y p90y p99y).min_x
          + p25x) / 2) ∧
    (∀ (F : Fitter) (s : Subject), (auto_optimize_subject F s).1 = true →
      (auto_optimize_subject F s).2.pzx =
        ((auto_optimize_subject F s).2.min_x + (auto_optimize_subject F s).2.p25x) / 2) := by
  constructor
  · intro F p25x p50x p75x p90x p99x p25y p50y p75y p90y p99y
    rw [build_general]
    rw [(compute_polynomials_placement F _).2.2.1, (compute_polynomials_placement F _).2.1]
  · intro F s hs
    obtain ⟨-, -, -, -, l1, c, l2, hsplit, hvc, hres, hl1, hl2⟩ :=
      auto_optimize_success_split F s hs
    rw [hres, (compute_polynomials_placement F _).2.2.1,
      (compute_polynomials_placement F _).2.1,
      (compute_polynomials_placement F _).2.2.2.2.1]
    rfl

/-- Witness for C5: the interactive builder on the English row, and the
optimizer's re-placement on the demo subject, both satisfy the midpoint
equation. -/
theorem lower_boundary_midpoint_witness :
    (build_general zero_fitter 61 72 83 91 99 52.67 70.12 83.18 89.48 93.60).pzx =
      ((build_general zero_fitter 61 72 83 91 99 52.67 70.12 83.18 89.48 93.60).min_x
        + 61) / 2 ∧
    (auto_optimize_subject const5_fitter demo_subject).2.pzx =
      ((auto_optimize_subject const5_fitter demo_subject).2.min_x +
        (auto_optimize_subject const5_fitter demo_subject).2.p25x) / 2 :=
  ⟨lower_boundary_midpoint.1 zero_fitter 61 72 83 91 99 52.67 70.12 83.18 89.48 93.60,
   lower_boundary_midpoint.2 const5_fitter demo_subject auto_optimize_demo_succeeds⟩

/-- C6 counterexample: on anchors with a tiny P25.y and large P50.y the
quadratic estimate for LowerBoundary.y is negative and `build_general` clamps
it to exactly 0, so `0 < LowerBoundary.y` fails — the interval is closed, not
open, at its lower end. -/
theorem lower_boundary_y_counterexample :
    clamp_zero_subject.pzy = 0 ∧ ¬ (0 < clamp_zero_subject.pzy) := by
  have h : clamp_zero_subject.pzy =
      max 0 (min ((1 : ℚ) * (95 / 100))
        (quad_interp_eval 10 0 61 1 72 70 ((10 + 61) / 2))) := by
    show (build_general zero_fitter 61 72 83 91 99 1 70 83.18 89.48 93.60).pzy = _
    rw [build_general, (compute_polynomials_placement _ _).2.2.2.1]
    norm_num [pdf_min_gap, min_def, max_def]
  rw [h]
  have hq : quad_interp_eval 10 0 61 1 72 70 ((10 + 61) / 2) < 0 := by
    norm_num [quad_interp_eval]
  constructor
  · rw [min_eq_right (by linarith), max_eq_left (by linarith)]
  · rw [min_eq_right (by linarith), max_eq_left (by linarith)]
    norm_num

/-- C6 amended: the LowerBoundary.y estimate of `build_general` is clamped
into the CLOSED interval `[0, 0.95 * P25.y]` — both end values are attainable,
so the spec's open interval only holds up to inclusivity — and a successful
auto-optimize installs a LowerBoundary.y in `[0.1, 0.95 * P25.y]`. -/
theorem lower_boundary_y_range :
    (∀ (F : Fitter) (p25x p50x p75x p90x p99x p25y p50y p75y p90y p99y : ℚ),
      0 ≤ p25y →
      0 ≤ (build_general F p25x p50x p75x p90x p99x p25y p50y p75y p90y p99y).pzy ∧
      (build_general F p25x p50x p75x p90x p99x p25y p50y p75y p90y p99y).pzy ≤
        p25y * (95 / 100)) ∧
    (∀ (F : Fitter) (s : Subject), (auto_optimize_subject F s).1 = true →
      1 / 10 ≤ (auto_optimize_subject F s).2.pzy ∧
      (auto_optimize_subject F s).2.pzy ≤ s.p25y * (95 / 100)) := by
  constructor
  · intro F p25x p50x p75x p90x p99x p25y p50y p75y p90y p99y hp
    rw [build_general, (compute_polynomials_placement F _).2.2.2.1]
    constructor
    · exact le_max_left 0 _
    · exact max_le (by linarith) (min_le_left _ _)
  · intro F s hs
    obtain ⟨-, -, -, hhi, l1, c, l2, hsplit, hvc, hres, hl1, hl2⟩ :=
      auto_optimize_success_split F s hs
    have hc_mem : c ∈ cand_grid := by
      rw [hsplit]
      exact List.mem_append.mpr (Or.inr (List.mem_cons_self c l2))
    have hc2 : c.2 < 31 := by
      rw [cand_grid] at hc_mem
      obtain ⟨mi, hmi, hc'⟩ := List.mem_flatMap.mp hc_mem
      obtain ⟨pyi, hpyi, hceq⟩ := List.mem_map.mp hc'
      rw [← hceq]
      exact List.mem_range.mp hpyi
    have hcast : (c.2 : ℚ) ≤ 30 := by
      have : c.2 ≤ 30 := by omega
      exact_mod_cast this
    have hcast0 : (0 : ℚ) ≤ (c.2 : ℚ) := Nat.cast_nonneg c.2
    rw [hres, (compute_polynomials_placement F _).2.2.2.1]
    show 1 / 10 ≤ cand_pzy s c.2 ∧ cand_pzy s c.2 ≤ s.p25y * (95 / 100)
    rw [cand_pzy]
    constructor
    · have hnn : 0 ≤ (s.p25y * (95 / 100) - 1 / 10) * (c.2 : ℚ) / 30 :=
        div_nonneg (mul_nonneg (by linarith) hcast0) (by norm_num)
      linarith
    · rw [mul_div_assoc]
      have h1 : (c.2 : ℚ) / 30 ≤ 1 := by
        rw [div_le_one (by norm_num : (0:ℚ) < 30)]
        linarith
      have h2 : (s.p25y * (95 / 100) - 1 / 10) * ((c.2 : ℚ) / 30) ≤
          s.p25y * (95 / 100) - 1 / 10 :=
        mul_le_of_le_one_right (by linarith) h1
      linarith

/-- Witness for C6: the interactive builder on the English row (with
`P25.y = 52.67 ≥ 0`) and the optimizer's installed boundary on the demo
subject both satisfy the closed-interval bounds. -/
theorem lower_boundary_y_range_witness :
    (0 ≤ (build_general zero_fitter 61 72 83 91 99 52.67 70.12 83.18 89.48 93.60).pzy ∧
      (build_general zero_fitter 61 72 83 91 99 52.67 70.12 83.18 89.48 93.60).pzy ≤
        52.67 * (95 / 100)) ∧
    (1 / 10 ≤ (auto_optimize_subject const5_fitter demo_subject).2.pzy ∧
      (auto_optimize_subject const5_fitter demo_subject).2.pzy ≤
        demo_subject.p25y * (95 / 100)) :=
  ⟨lower_boundary_y_range.1 zero_fitter 61 72 83 91 99 52.67 70.12 83.18 89.48 93.60
      (by norm_num),
   lower_boundary_y_range.2 const5_fitter demo_subject auto_optimize_demo_succeeds⟩

/-! #### Hundredth-valued rationals: exactness of `round2` on band bounds -/

theorem isCents_sub {a b : ℚ} (ha : isCents a) (hb : isCents b) : isCents (a - b) := by
  obtain ⟨n, rfl⟩ := ha
  obtain ⟨p, rfl⟩ := hb
  exact ⟨n - p, by push_cast; ring⟩

theorem isCents_nat_mul_twentieth (k : ℕ) : isCents ((k : ℚ) * (1 / 20)) :=
  ⟨5 * k, by push_cast; ring⟩

theorem cents_le_of_sub_small {a b : ℚ} (ha : isCents a) (hb : isCents b)
    (h : b - 1 / 1000 ≤ a) : b ≤ a := by
  obtain ⟨n, rfl⟩ := ha
  obtain ⟨p, rfl⟩ := hb
  have h1 : ((10 * p : ℤ) : ℚ) - 1 ≤ ((10 * n : ℤ) : ℚ) := by push_cast; linarith
  have h2 : (10 * p : ℤ) - 1 ≤ 10 * n := by exact_mod_cast h1
  have h3 : p ≤ n := by omega
  have h4 : (p : ℚ) ≤ (n : ℚ) := by exact_mod_cast h3
  linarith

/-! #### The bands of a `table14` range -/

theorem mem_bands_bounds {low high : ℚ} (hl : isCents low) (hh : isCents high)
    {b : ℚ} (hb : b ∈ bands_in_range low high) :
    low ≤ b ∧ b ≤ high ∧ isCents b := by
  rw [bands_in_range] at hb
  split at hb
  · simp at hb
  case isFalse hno =>
    push_neg at hno
    obtain ⟨k, hk, rfl⟩ := List.mem_map.mp hb
    rw [List.mem_range] at hk
    have hc : isCents (high - (k : ℚ) * (1 / 20)) :=
      isCents_sub hh (isCents_nat_mul_twentieth k)
    rw [round2_of_isCents hc]
    have hF : ((high - low + 1 / 1000) * 20).floor = ⌊(high - low + 1 / 1000) * 20⌋ := rfl
    rw [hF] at hk
    have hfl_nonneg : (0 : ℤ) ≤ ⌊(high - low + 1 / 1000) * 20⌋ := by
      apply Int.le_floor.mpr
      push_cast
      nlinarith
    have hk1 : (k : ℤ) ≤ ⌊(high - low + 1 / 1000) * 20⌋ := by
      have := Nat.lt_succ_iff.mp hk
      omega
    have hk2 : (k : ℚ) ≤ (high - low + 1 / 1000) * 20 :=
      le_trans (by exact_mod_cast hk1) (Int.floor_le _)
    refine ⟨?_, ?_, hc⟩
    · apply cents_le_of_sub_small hc hl
      linarith
    · have : (0 : ℚ) ≤ (k : ℚ) * (1 / 20) := by positivity
      linarith

theorem bands_nodup {low high : ℚ} (hl : isCents low) (hh : isCents high) :
    (bands_in_range low high).Nodup := by
  rw [bands_in_range]
  split
  · exact List.nodup_nil
  case isFalse hno =>
    push_neg at hno
    apply List.Nodup.map_on _ (List.nodup_range _)
    intro x _ y _ hxy
    have hcx : isCents (high - (x : ℚ) * (1 / 20)) :=
      isCents_sub hh (isCents_nat_mul_twentieth x)
    have hcy : isCents (high - (y : ℚ) * (1 / 20)) :=
      isCents_sub hh (isCents_nat_mul_twentieth y)
    rw [round2_of_isCents hcx, round2_of_isCents hcy] at hxy
    have : (x : ℚ) = (y : ℚ) := by linarith
    exact_mod_cast this

/-! #### Dictionary operations -/

theorem bm_contains_iff_mem (m : BandMap) (k : ℚ) :
    bm_contains m k = true ↔ k ∈ m.map Prod.fst := by
  induction m with
  | nil => simp [bm_contains]
  | cons p t ih =>
    simp only [bm_contains, List.map_cons, List.mem_cons, Bool.or_eq_true,
      decide_eq_true_eq, ih]
    constructor
    · rintro (h | h)
      · exact Or.inl h.symm
      · exact Or.inr h
    · rintro (h | h)
      · exact Or.inl h.symm
      · exact Or.inr h

theorem bm_get_not_contains {m : BandMap} {k : ℚ} (h : bm_contains m k = false) :
    bm_get m k = 0 := by
  induction m with
  | nil => rfl
  | cons p t ih =>
    rw [bm_contains] at h
    rw [Bool.or_eq_false_iff] at h
    rw [bm_get, if_neg (by simpa using h.1)]
    exact ih h.2

theorem bm_get_insert_self (m : BandMap) (k : ℚ) (v : ℤ) :
    bm_get (bm_insert m k v) k = v := by
  induction m with
  | nil => simp [bm_insert, bm_get]
  | cons p t ih =>
    rw [bm_insert]
    by_cases h : p.1 = k
    · rw [if_pos h, bm_get, if_pos rfl]
    · rw [if_neg h, bm_get, if_neg h]
      exact ih

theorem bm_get_insert_ne (m : BandMap) {k k' : ℚ} (v : ℤ) (h : k' ≠ k) :
    bm_get (bm_insert m k v) k' = bm_get m k' := by
  induction m with
  | nil =>
    show bm_get [(k, v)] k' = bm_get [] k'
    have hne : ¬(k = k') := fun he => h he.symm
    simp only [bm_get, if_neg hne]
  | cons p t ih =>
    rw [bm_insert]
    by_cases hp : p.1 = k
    · rw [if_pos hp, bm_get, if_neg (by rw [hp] at hp ⊢; exact fun he => h he.symm),
        bm_get, if_neg (hp ▸ fun he => h he.symm)]
    · rw [if_neg hp, bm_get, bm_get]
      by_cases hp' : p.1 = k'
      · rw [if_pos hp', if_pos hp']
      · rw [if_neg hp', if_neg hp']
        exact ih

theorem bm_contains_insert_ne (m : BandMap) {k k' : ℚ} (v : ℤ) (h : k' ≠ k) :
    bm_contains (bm_insert m k v) k' = bm_contains m k' := by
  induction m with
  | nil =>
    show bm_contains [(k, v)] k' = bm_contains [] k'
    have hne : ¬(k = k') := fun he => h he.symm
    simp [bm_contains, hne]
  | cons p t ih =>
    rw [bm_insert]
    by_cases hp : p.1 = k
    · rw [if_pos hp, bm_contains, bm_contains, hp]
    · rw [if_neg hp, bm_contains, bm_contains, ih]

theorem bm_keys_insert_fresh {m : BandMap} {k : ℚ} (v : ℤ)
    (h : bm_contains m k = false) :
    (bm_insert m k v).map Prod.fst = m.map Prod.fst ++ [k] := by
  induction m with
  | nil => rfl
  | cons p t ih =>
    rw [bm_contains, Bool.or_eq_false_iff] at h
    rw [bm_insert, if_neg (by simpa using h.1), List.map_cons, ih h.2, List.map_cons,
      List.cons_append]

theorem bm_keys_insert_stale {m : BandMap} {k : ℚ} (v : ℤ)
    (h : bm_contains m k = true) :
    (bm_insert m k v).map Prod.fst = m.map Prod.fst := by
  induction m with
  | nil => simp [bm_contains] at h
  | cons p t ih =>
    rw [bm_contains, Bool.or_eq_true] at h
    rw [bm_insert]
    by_cases hp : p.1 = k
    · rw [if_pos hp, List.map_cons, List.map_cons, hp]
    · rw [if_neg hp, List.map_cons, List.map_cons,
        ih (h.resolve_left (by simpa using hp))]

theorem bm_nodup_insert {m : BandMap} (k : ℚ) (v : ℤ)
    (h : (m.map Prod.fst).Nodup) : ((bm_insert m k v).map Prod.fst).Nodup := by
  cases hc : bm_contains m k with
  | true => rw [bm_keys_insert_stale v hc]; exact h
  | false =>
    rw [bm_keys_insert_fresh v hc]
    have hk : k ∉ m.map Prod.fst := by
      intro hm
      rw [← bm_contains_iff_mem, hc] at hm
      exact Bool.false_ne_true hm
    simp [List.nodup_append, h, hk]

theorem bm_values_insert_fresh {m : BandMap} {k : ℚ} (v : ℤ)
    (h : bm_contains m k = false) :
    ((bm_insert m k v).map Prod.snd).sum = (m.map Prod.snd).sum + v := by
  induction m with
  | nil => simp [bm_insert]
  | cons p t ih =>
    rw [bm_contains, Bool.or_eq_false_iff] at h
    rw [bm_insert, if_neg (by simpa using h.1), List.map_cons, List.sum_cons,
      List.map_cons, List.sum_cons, ih h.2, add_assoc]

/-! #### The assignment fold over the unassigned bands -/

theorem fold_insert_frame (f : ℕ → ℤ) :
    ∀ (ks : List ℚ) (j : ℕ) (m : BandMap) (k : ℚ), k ∉ ks →
      bm_get ((ks.enumFrom j).foldl (fun acc p => bm_insert acc p.2 (f p.1)) m) k
        = bm_get m k ∧
      bm_contains ((ks.enumFrom j).foldl (fun acc p => bm_insert acc p.2 (f p.1)) m) k
        = bm_contains m k := by
  intro ks
  induction ks with
  | nil => intro j m k _; exact ⟨rfl, rfl⟩
  | cons a t ih =>
    intro j m k hk
    rw [List.enumFrom_cons, List.foldl_cons]
    have hka : k ≠ a := fun he => hk (he ▸ List.mem_cons_self a t)
    have ht : k ∉ t := fun hm => hk (List.mem_cons_of_mem a hm)
    obtain ⟨h1, h2⟩ := ih (j + 1) (bm_insert m a (f j)) k ht
    exact ⟨by rw [h1, bm_get_insert_ne _ _ hka], by rw [h2, bm_contains_insert_ne _ _ hka]⟩

theorem range_map_sum_shift (f : ℕ → ℤ) (n : ℕ) (j : ℕ) :
    ((List.range (n + 1)).map (fun i => f (j + i))).sum
      = f j + ((List.range n).map (fun i => f (j + 1 + i))).sum := by
  rw [List.range_succ_eq_map, List.map_cons, List.sum_cons, List.map_map]
  congr 1
  congr 1
  apply List.map_congr_left
  intro i _
  simp only [Function.comp_apply]
  congr 1
  omega

theorem fold_insert_values (f : ℕ → ℤ) :
    ∀ (ks : List ℚ) (j : ℕ) (m : BandMap), ks.Nodup →
      (∀ k ∈ ks, bm_contains m k = false) →
      (((ks.enumFrom j).foldl (fun acc p => bm_insert acc p.2 (f p.1)) m).map Prod.snd).sum
        = (m.map Prod.snd).sum + ((List.range ks.length).map (fun i => f (j + i))).sum := by
  intro ks
  induction ks with
  | nil => intro j m _ _; simp [List.enumFrom]
  | cons a t ih =>
    intro j m hnd hfresh
    rw [List.enumFrom_cons, List.foldl_cons]
    have hfa : bm_contains m a = false := hfresh a (List.mem_cons_self a t)
    have hrest : ∀ k ∈ t, bm_contains (bm_insert m a (f j)) k = false := by
      intro k hk
      have hka : k ≠ a := fun he => (List.nodup_cons.mp hnd).1 (he ▸ hk)
      rw [bm_contains_insert_ne _ _ hka]
      exact hfresh k (List.mem_cons_of_mem a hk)
    rw [ih (j + 1) (bm_insert m a (f j)) (List.nodup_cons.mp hnd).2 hrest,
      bm_values_insert_fresh _ hfa, List.length_cons, range_map_sum_shift]
    ring

theorem fold_insert_member_sum (f : ℕ → ℤ) :
    ∀ (ks : List ℚ) (j : ℕ) (m : BandMap), ks.Nodup →
      (∀ k ∈ ks, bm_contains m k = false) →
      (ks.map (fun k =>
          bm_get ((ks.enumFrom j).foldl (fun acc p => bm_insert acc p.2 (f p.1)) m) k)).sum
        = ((List.range ks.length).map (fun i => f (j + i))).sum := by
  intro ks
  induction ks with
  | nil => intro j m _ _; simp
  | cons a t ih =>
    intro j m hnd hfresh
    rw [List.enumFrom_cons, List.foldl_cons, List.map_cons, List.sum_cons]
    have hnda := (List.nodup_cons.mp hnd).1
    have hget_a :
        bm_get ((t.enumFrom (j + 1)).foldl (fun acc p => bm_insert acc p.2 (f p.1))
          (bm_insert m a (f j))) a = f j := by
      rw [(fold_insert_frame f t (j + 1) (bm_insert m a (f j)) a hnda).1,
        bm_get_insert_self]
    have hrest : ∀ k ∈ t, bm_contains (bm_insert m a (f j)) k = false := by
      intro k hk
      have hka : k ≠ a := fun he => hnda (he ▸ hk)
      rw [bm_contains_insert_ne _ _ hka]
      exact hfresh k (List.mem_cons_of_mem a hk)
    rw [hget_a, ih (j + 1) (bm_insert m a (f j)) (List.nodup_cons.mp hnd).2 hrest,
      List.length_cons, range_map_sum_shift]

theorem base_extra_sum (base : ℤ) :
    ∀ (nn : ℕ) (extra : ℤ), 0 ≤ extra → extra ≤ (nn : ℤ) →
      ((List.range nn).map (fun (i : ℕ) => base + if (i : ℤ) < extra then 1 else 0)).sum
        = nn * base + extra := by
  intro nn
  induction nn with
  | zero =>
    intro extra h1 h2
    simp only [List.range_zero, List.map_nil, List.sum_nil, Nat.cast_zero, zero_mul]
    omega
  | succ n ih =>
    intro extra h1 h2
    by_cases hc : extra ≤ (n : ℤ)
    · rw [List.range_succ, List.map_append, List.sum_append, ih extra h1 hc]
      have hn : ¬((n : ℤ) < extra) := by omega
      simp only [List.map_cons, List.map_nil, List.sum_cons, List.sum_nil, if_neg hn]
      push_cast
      ring
    · have hex : extra = (n : ℤ) + 1 := by omega
      have hall : ∀ i ∈ List.range (n + 1),
          (base + if (i : ℤ) < extra then 1 else 0) = base + 1 := by
        intro i hi
        rw [List.mem_range] at hi
        have hlt : (i : ℤ) < extra := by omega
        rw [if_pos hlt]
      rw [List.map_congr_left hall, List.map_const', List.sum_replicate, List.length_range,
        nsmul_eq_mul, hex]
      push_cast
      ring

/-! #### Per-range conservation -/

theorem fold_insert_nodup (f : ℕ → ℤ) :
    ∀ (ks : List ℚ) (j : ℕ) (m : BandMap), (m.map Prod.fst).Nodup →
      ((((ks.enumFrom j).foldl (fun acc p => bm_insert acc p.2 (f p.1)) m)).map
        Prod.fst).Nodup := by
  intro ks
  induction ks with
  | nil => intro j m h; exact h
  | cons a t ih =>
    intro j m h
    rw [List.enumFrom_cons, List.foldl_cons]
    exact ih (j + 1) (bm_insert m a (f j)) (bm_nodup_insert a (f j) h)

theorem range_sum_eq_already (m : BandMap) (low high : ℚ) :
    range_sum m low high = already_assigned m low high := by
  rw [range_sum, already_assigned]
  generalize bands_in_range low high = bs
  induction bs with
  | nil => simp
  | cons b t ih =>
    rw [List.map_cons, List.sum_cons, List.filter_cons]
    by_cases hb : bm_contains m b = true
    · rw [if_pos (by simpa using hb), List.map_cons, List.sum_cons, ih]
    · have h0 : bm_get m b = 0 := bm_get_not_contains (by simpa using hb)
      rw [if_neg (by simpa using hb), h0, ih, zero_add]

theorem mem_sorted_unassigned_iff {m : BandMap} {low high : ℚ} {k : ℚ} :
    k ∈ (unassigned_bands m low high).insertionSort (fun a b => b ≤ a) ↔
      k ∈ unassigned_bands m low high :=
  (List.perm_insertionSort (fun a b => b ≤ a) (unassigned_bands m low high)).mem_iff

theorem enum_eq_enumFrom_zero {α : Type} (l : List α) : l.enum = l.enumFrom 0 := rfl

theorem process_range_frame (m : BandMap) (low high : ℚ) (total : ℤ) {k : ℚ}
    (hk : k ∉ bands_in_range low high) :
    bm_get (process_range m low high total) k = bm_get m k ∧
    bm_contains (process_range m low high total) k = bm_contains m k := by
  rw [process_range]
  split
  · exact ⟨rfl, rfl⟩
  · rw [enum_eq_enumFrom_zero]
    exact fold_insert_frame
      (fun i => range_base m low high total
        + if (i : ℤ) < range_extra m low high total then 1 else 0)
      ((unassigned_bands m low high).insertionSort (fun a b => b ≤ a)) 0 m k
      (fun hmem => hk (List.mem_of_mem_filter (mem_sorted_unassigned_iff.mp hmem)))

theorem process_range_nodup (m : BandMap) (low high : ℚ) (total : ℤ)
    (h : (m.map Prod.fst).Nodup) :
    ((process_range m low high total).map Prod.fst).Nodup := by
  rw [process_range]
  split
  · exact h
  · rw [enum_eq_enumFrom_zero]
    exact fold_insert_nodup
      (fun i => range_base m low high total
        + if (i : ℤ) < range_extra m low high total then 1 else 0)
      ((unassigned_bands m low high).insertionSort (fun a b => b ≤ a)) 0 m h

theorem already_unassigned_congr {m m' : BandMap} {low high : ℚ}
    (h : ∀ b ∈ bands_in_range low high,
      bm_get m' b = bm_get m b ∧ bm_contains m' b = bm_contains m b) :
    already_assigned m' low high = already_assigned m low high ∧
    unassigned_bands m' low high = unassigned_bands m low high := by
  constructor
  · rw [already_assigned, already_assigned,
      List.filter_congr (fun b hb => (h b hb).2)]
    apply congrArg List.sum
    apply List.map_congr_left
    intro b hb
    exact (h b (List.mem_of_mem_filter hb)).1
  · rw [unassigned_bands, unassigned_bands]
    apply List.filter_congr
    intro b hb
    rw [(h b hb).2]

theorem range_sum_congr {m m' : BandMap} {low high : ℚ}
    (h : ∀ b ∈ bands_in_range low high, bm_get m' b = bm_get m b) :
    range_sum m' low high = range_sum m low high := by
  rw [range_sum, range_sum]
  exact congrArg List.sum (List.map_congr_left h)

theorem sorted_unassigned_nodup {m : BandMap} {low high : ℚ}
    (hl : isCents low) (hh : isCents high) :
    ((unassigned_bands m low high).insertionSort (fun a b => b ≤ a)).Nodup :=
  (List.perm_insertionSort _ _).nodup_iff.mpr ((bands_nodup hl hh).filter _)

theorem sorted_unassigned_fresh {m : BandMap} {low high : ℚ} :
    ∀ k ∈ (unassigned_bands m low high).insertionSort (fun a b => b ≤ a),
      bm_contains m k = false := by
  intro k hk
  have h1 := mem_sorted_unassigned_iff.mp hk
  have h2 := List.of_mem_filter h1
  simpa using h2

theorem range_extra_eq_fmod (m : BandMap) (low high : ℚ) (total : ℤ) :
    range_extra m low high total
      = (range_remaining m low high total).fmod ((unassigned_bands m low high).length : ℤ) := by
  have h := Int.fdiv_add_fmod (range_remaining m low high total)
    ((unassigned_bands m low high).length : ℤ)
  rw [range_extra, range_base]
  linarith

theorem range_extra_bounds {m : BandMap} {low high : ℚ} {total : ℤ}
    (hpos : 0 < range_remaining m low high total)
    (hlen : (unassigned_bands m low high).length ≠ 0) :
    0 ≤ range_extra m low high total ∧
      range_extra m low high total ≤ ((unassigned_bands m low high).length : ℤ) := by
  rw [range_extra_eq_fmod]
  have hn : (0 : ℤ) < ((unassigned_bands m low high).length : ℤ) := by
    exact_mod_cast Nat.pos_of_ne_zero hlen
  exact ⟨Int.fmod_nonneg (le_of_lt hpos) (le_of_lt hn),
    le_of_lt (Int.fmod_lt_of_pos _ hn)⟩

theorem range_assign_sum {m : BandMap} {low high : ℚ} {total : ℤ}
    (hpos : 0 < range_remaining m low high total)
    (hlen : (unassigned_bands m low high).length ≠ 0) :
    ((List.range (((unassigned_bands m low high).insertionSort
        (fun a b => b ≤ a)).length)).map
      (fun (i : ℕ) => range_base m low high total
        + if (i : ℤ) < range_extra m low high total then 1 else 0)).sum
      = range_remaining m low high total := by
  have hlen_eq : ((unassigned_bands m low high).insertionSort
      (fun a b => b ≤ a)).length = (unassigned_bands m low high).length :=
    (List.perm_insertionSort _ _).length_eq
  obtain ⟨he0, hele⟩ := range_extra_bounds hpos hlen
  rw [hlen_eq, base_extra_sum (range_base m low high total)
    (unassigned_bands m low high).length (range_extra m low high total) he0 hele]
  rw [range_extra]
  ring

theorem process_range_conserves (m : BandMap) {low high : ℚ} (total : ℤ)
    (hl : isCents low) (hh : isCents high)
    (hrem : 0 ≤ range_remaining m low high total)
    (hcorner : unassigned_bands m low high = [] → range_remaining m low high total = 0) :
    range_sum (process_range m low high total) low high = total := by
  rw [process_range]
  split
  case isTrue hyes =>
    have h0 : range_remaining m low high total = 0 := by
      rcases hyes with h | h
      · omega
      · exact hcorner (List.length_eq_zero.mp h)
    rw [range_sum_eq_already]
    rw [range_remaining] at h0
    omega
  case isFalse hno =>
    push_neg at hno
    obtain ⟨hpos', hlen⟩ := hno
    have hpos : 0 < range_remaining m low high total := hpos'
    rw [enum_eq_enumFrom_zero, range_sum]
    have hsplitperm := List.filter_append_perm
      (fun br => bm_contains m br) (bands_in_range low high)
    have hmap := (hsplitperm.map (fun br => bm_get
      ((((unassigned_bands m low high).insertionSort (fun a b => b ≤ a)).enumFrom 0).foldl
        (fun acc p => bm_insert acc p.2
          (range_base m low high total
            + if (p.1 : ℤ) < range_extra m low high total then 1 else 0)) m) br)).sum_eq
    rw [← hmap, List.map_append, List.sum_append]
    have hpiece1 : (((bands_in_range low high).filter
        (fun br => bm_contains m br)).map (fun br => bm_get
          ((((unassigned_bands m low high).insertionSort (fun a b => b ≤ a)).enumFrom 0).foldl
            (fun acc p => bm_insert acc p.2
              (range_base m low high total
                + if (p.1 : ℤ) < range_extra m low high total then 1 else 0)) m) br)).sum
        = already_assigned m low high := by
      rw [already_assigned]
      apply congrArg List.sum
      apply List.map_congr_left
      intro b hb
      have hbc : bm_contains m b = true := by simpa using List.of_mem_filter hb
      have hbnot : b ∉ (unassigned_bands m low high).insertionSort (fun a b => b ≤ a) := by
        intro hmem
        have h1 := List.of_mem_filter (mem_sorted_unassigned_iff.mp hmem)
        rw [hbc] at h1
        simp at h1
      exact (fold_insert_frame
        (fun i => range_base m low high total
          + if (i : ℤ) < range_extra m low high total then 1 else 0)
        ((unassigned_bands m low high).insertionSort (fun a b => b ≤ a)) 0 m b hbnot).1
    have hpiece2 : (((bands_in_range low high).filter
        (fun a => ! bm_contains m a)).map (fun br => bm_get
          ((((unassigned_bands m low high).insertionSort (fun a b => b ≤ a)).enumFrom 0).foldl
            (fun acc p => bm_insert acc p.2
              (range_base m low high total
                + if (p.1 : ℤ) < range_extra m low high total then 1 else 0)) m) br)).sum
        = range_remaining m low high total := by
      have hperm2 : List.Perm
          ((unassigned_bands m low high).insertionSort (fun a b => b ≤ a))
          ((bands_in_range low high).filter (fun a => ! bm_contains m a)) :=
        List.perm_insertionSort _ _
      rw [← (hperm2.map _).sum_eq]
      rw [fold_insert_member_sum
        (fun i => range_base m low high total
          + if (i : ℤ) < range_extra m low high total then 1 else 0)
        ((unassigned_bands m low high).insertionSort (fun a b => b ≤ a)) 0 m
        (sorted_unassigned_nodup hl hh) sorted_unassigned_fresh]
      have hz : ∀ i ∈ List.range (((unassigned_bands m low high).insertionSort
          (fun a b => b ≤ a)).length),
          (range_base m low high total
            + if ((0 + i : ℕ) : ℤ) < range_extra m low high total then 1 else 0)
          = (range_base m low high total
            + if ((i : ℕ) : ℤ) < range_extra m low high total then 1 else 0) := by
        intro i _
        norm_num
      rw [List.map_congr_left hz]
      exact range_assign_sum hpos hlen
    rw [hpiece1, hpiece2, range_remaining]
    ring

theorem process_range_values (m : BandMap) {low high : ℚ} (total : ℤ)
    (hl : isCents low) (hh : isCents high)
    (hrem : 0 ≤ range_remaining m low high total)
    (hcorner : unassigned_bands m low high = [] → range_remaining m low high total = 0) :
    ((process_range m low high total).map Prod.snd).sum
      = (m.map Prod.snd).sum + range_remaining m low high total := by
  rw [process_range]
  split
  case isTrue hyes =>
    have h0 : range_remaining m low high total = 0 := by
      rcases hyes with h | h
      · omega
      · exact hcorner (List.length_eq_zero.mp h)
    rw [h0, add_zero]
  case isFalse hno =>
    push_neg at hno
    obtain ⟨hpos, hlen⟩ := hno
    rw [enum_eq_enumFrom_zero]
    rw [fold_insert_values
      (fun i => range_base m low high total
        + if (i : ℤ) < range_extra m low high total then 1 else 0)
      ((unassigned_bands m low high).insertionSort (fun a b => b ≤ a)) 0 m
      (sorted_unassigned_nodup hl hh) sorted_unassigned_fresh]
    congr 1
    have hz : ∀ i ∈ List.range (((unassigned_bands m low high).insertionSort
        (fun a b => b ≤ a)).length),
        (range_base m low high total
          + if ((0 + i : ℕ) : ℤ) < range_extra m low high total then 1 else 0)
        = (range_base m low high total
          + if ((i : ℕ) : ℤ) < range_extra m low high total then 1 else 0) := by
      intro i _
      norm_num
    rw [List.map_congr_left hz]
    exact range_assign_sum hpos hlen

theorem bands_disjoint {l1 h1 l2 h2 : ℚ} (hcl1 : isCents l1) (hch1 : isCents h1)
    (hcl2 : isCents l2) (hch2 : isCents h2) (hlt : h2 < l1) {b : ℚ}
    (hb : b ∈ bands_in_range l1 h1) : b ∉ bands_in_range l2 h2 := by
  intro hb2
  have B1 := mem_bands_bounds hcl1 hch1 hb
  have B2 := mem_bands_bounds hcl2 hch2 hb2
  linarith [B1.1, B2.2.1]

theorem split_bands_cons (m : BandMap) (r : ℚ × ℚ × ℤ) (rest : List (ℚ × ℚ × ℤ)) :
    split_bands m (r :: rest) = split_bands (process_range m r.1 r.2.1 r.2.2) rest := by
  rw [split_bands, split_bands, List.foldl_cons]

theorem split_bands_invariant :
    ∀ (dist : List (ℚ × ℚ × ℤ)) (m : BandMap),
      (m.map Prod.fst).Nodup →
      (∀ r ∈ dist, isCents r.1 ∧ isCents r.2.1) →
      List.Pairwise (fun r r' : ℚ × ℚ × ℤ => r'.2.1 < r.1) dist →
      (∀ r ∈ dist, 0 ≤ range_remaining m r.1 r.2.1 r.2.2) →
      (∀ r ∈ dist, unassigned_bands m r.1 r.2.1 = [] →
        range_remaining m r.1 r.2.1 r.2.2 = 0) →
      (∀ r ∈ dist, range_sum (split_bands m dist) r.1 r.2.1 = r.2.2) ∧
      ((split_bands m dist).map Prod.snd).sum
        = (m.map Prod.snd).sum
          + (dist.map (fun r => range_remaining m r.1 r.2.1 r.2.2)).sum ∧
      (∀ k : ℚ, (∀ r ∈ dist, k ∉ bands_in_range r.1 r.2.1) →
        bm_get (split_bands m dist) k = bm_get m k ∧
        bm_contains (split_bands m dist) k = bm_contains m k) ∧
      ((split_bands m dist).map Prod.fst).Nodup := by
  intro dist
  induction dist with
  | nil =>
    intro m hnd _ _ _ _
    exact ⟨by simp, by simp [split_bands], fun k _ => ⟨rfl, rfl⟩, hnd⟩
  | cons r rest ih =>
    intro m hnd hc hpw hrem hcorner
    obtain ⟨hcr1, hcr2⟩ := hc r (List.mem_cons_self r rest)
    obtain ⟨hhead, hpwrest⟩ := List.pairwise_cons.mp hpw
    have hcrest : ∀ r' ∈ rest, isCents r'.1 ∧ isCents r'.2.1 :=
      fun r' hr' => hc r' (List.mem_cons_of_mem r hr')
    have hdisj : ∀ r' ∈ rest, ∀ b ∈ bands_in_range r'.1 r'.2.1,
        b ∉ bands_in_range r.1 r.2.1 := by
      intro r' hr' b hb hbr
      exact bands_disjoint hcr1 hcr2 (hcrest r' hr').1 (hcrest r' hr').2
        (hhead r' hr') hbr hb
    have hframe1 : ∀ r' ∈ rest, ∀ b ∈ bands_in_range r'.1 r'.2.1,
        bm_get (process_range m r.1 r.2.1 r.2.2) b = bm_get m b ∧
        bm_contains (process_range m r.1 r.2.1 r.2.2) b = bm_contains m b :=
      fun r' hr' b hb => process_range_frame m r.1 r.2.1 r.2.2 (hdisj r' hr' b hb)
    have htrans : ∀ r' ∈ rest,
        already_assigned (process_range m r.1 r.2.1 r.2.2) r'.1 r'.2.1
          = already_assigned m r'.1 r'.2.1 ∧
        unassigned_bands (process_range m r.1 r.2.1 r.2.2) r'.1 r'.2.1
          = unassigned_bands m r'.1 r'.2.1 :=
      fun r' hr' => already_unassigned_congr (hframe1 r' hr')
    have hremtrans : ∀ r' ∈ rest,
        range_remaining (process_range m r.1 r.2.1 r.2.2) r'.1 r'.2.1 r'.2.2
          = range_remaining m r'.1 r'.2.1 r'.2.2 := by
      intro r' hr'
      rw [range_remaining, range_remaining, (htrans r' hr').1]
    have hrem1 : ∀ r' ∈ rest,
        0 ≤ range_remaining (process_range m r.1 r.2.1 r.2.2) r'.1 r'.2.1 r'.2.2 := by
      intro r' hr'
      rw [hremtrans r' hr']
      exact hrem r' (List.mem_cons_of_mem r hr')
    have hcorner1 : ∀ r' ∈ rest,
        unassigned_bands (process_range m r.1 r.2.1 r.2.2) r'.1 r'.2.1 = [] →
          range_remaining (process_range m r.1 r.2.1 r.2.2) r'.1 r'.2.1 r'.2.2 = 0 := by
      intro r' hr' hemp
      rw [hremtrans r' hr']
      rw [(htrans r' hr').2] at hemp
      exact hcorner r' (List.mem_cons_of_mem r hr') hemp
    have hnd1 : (((process_range m r.1 r.2.1 r.2.2)).map Prod.fst).Nodup :=
      process_range_nodup m r.1 r.2.1 r.2.2 hnd
    obtain ⟨ihcons, ihvals, ihframe, ihnodup⟩ :=
      ih (process_range m r.1 r.2.1 r.2.2) hnd1 hcrest hpwrest hrem1 hcorner1
    rw [split_bands_cons]
    have hdisj2 : ∀ r' ∈ rest, ∀ b ∈ bands_in_range r.1 r.2.1,
        b ∉ bands_in_range r'.1 r'.2.1 := by
      intro r' hr' b hb
      exact bands_disjoint hcr1 hcr2 (hcrest r' hr').1 (hcrest r' hr').2
        (hhead r' hr') hb
    refine ⟨?_, ?_, ?_, ihnodup⟩
    · intro r0 hr0
      rcases List.mem_cons.mp hr0 with h | h
      · subst h
        have hkeep : ∀ b ∈ bands_in_range r0.1 r0.2.1,
            bm_get (split_bands (process_range m r0.1 r0.2.1 r0.2.2) rest) b
              = bm_get (process_range m r0.1 r0.2.1 r0.2.2) b := by
          intro b hb
          exact (ihframe b (fun r'' hr'' => hdisj2 r'' hr'' b hb)).1
        rw [range_sum_congr hkeep]
        exact process_range_conserves m r0.2.2 hcr1 hcr2
          (hrem r0 (List.mem_cons_self r0 rest))
          (hcorner r0 (List.mem_cons_self r0 rest))
      · exact ihcons r0 h
    · rw [ihvals, process_range_values m r.2.2 hcr1 hcr2
        (hrem r (List.mem_cons_self r rest)) (hcorner r (List.mem_cons_self r rest)),
        List.map_cons, List.sum_cons]
      have hmc : ∀ r' ∈ rest,
          range_remaining (process_range m r.1 r.2.1 r.2.2) r'.1 r'.2.1 r'.2.2
            = range_remaining m r'.1 r'.2.1 r'.2.2 := hremtrans
      rw [List.map_congr_left hmc]
      ring
    · intro k hk
      have hkr : k ∉ bands_in_range r.1 r.2.1 := hk r (List.mem_cons_self r rest)
      have hkrest : ∀ r' ∈ rest, k ∉ bands_in_range r'.1 r'.2.1 :=
        fun r' hr' => hk r' (List.mem_cons_of_mem r hr')
      obtain ⟨g1, g2⟩ := ihframe k hkrest
      obtain ⟨p1, p2⟩ := process_range_frame m r.1 r.2.1 r.2.2 hkr
      exact ⟨by rw [g1, p1], by rw [g2, p2]⟩

theorem foldl_add_get (m : BandMap) :
    ∀ (l : List ℚ) (a : ℤ),
      l.foldl (fun running band => running + bm_get m band) a
        = a + (l.map (fun band => bm_get m band)).sum := by
  intro l
  induction l with
  | nil => intro a; simp
  | cons b t ih =>
    intro a
    rw [List.foldl_cons, ih, List.map_cons, List.sum_cons]
    ring

theorem sum_get_keys :
    ∀ (m : BandMap), (m.map Prod.fst).Nodup →
      ((m.map Prod.fst).map (fun band => bm_get m band)).sum = (m.map Prod.snd).sum := by
  intro m
  induction m with
  | nil => intro _; rfl
  | cons p t ih =>
    intro hnd
    rw [List.map_cons, List.map_cons, List.sum_cons, List.map_cons, List.sum_cons]
    have hp : bm_get (p :: t) p.1 = p.2 := by rw [bm_get, if_pos rfl]
    have hrest : ∀ k ∈ t.map Prod.fst,
        bm_get (p :: t) k = bm_get t k := by
      intro k hk
      have hne : ¬(p.1 = k) := by
        intro he
        exact (List.nodup_cons.mp hnd).1 (he ▸ hk)
      rw [bm_get, if_neg hne]
    rw [hp, List.map_congr_left hrest, ih (List.nodup_cons.mp hnd).2]

theorem cumulative_eq_values {m : BandMap} (hnd : (m.map Prod.fst).Nodup) :
    cumulative_at_lowest m = (m.map Prod.snd).sum := by
  rw [cumulative_at_lowest, sorted_bands, foldl_add_get, zero_add]
  have hperm : List.Perm ((m.map Prod.fst).insertionSort (fun a b => b ≤ a))
      (m.map Prod.fst) := List.perm_insertionSort _ _
  rw [(hperm.map (fun band => bm_get m band)).sum_eq]
  exact sum_get_keys m hnd

theorem list_sum_map_sub {α : Type} (l : List α) (f g : α → ℤ) :
    (l.map (fun x => f x - g x)).sum = (l.map f).sum - (l.map g).sum := by
  induction l with
  | nil => simp
  | cons x t ih =>
    rw [List.map_cons, List.sum_cons, List.map_cons, List.sum_cons,
      List.map_cons, List.sum_cons, ih]
    ring

/-- C9 counterexample: a range that already holds counts summing to 5 over its
single band but whose `table14` total is 7 has non-negative remaining count 2,
yet the splitting loop skips it (`unassigned` is empty), so the band counts sum
to 5, not 7, and the cumulative count at the lowest band is 5, not the
distribution total `T = 7`. -/
theorem band_split_not_conserving :
    0 ≤ range_remaining [((1:ℚ), (5:ℤ))] 1 1 7 ∧
    range_sum (split_bands [((1:ℚ), (5:ℤ))] [((1:ℚ), (1:ℚ), (7:ℤ))]) 1 1 ≠ 7 ∧
    cumulative_at_lowest (split_bands [((1:ℚ), (5:ℤ))] [((1:ℚ), (1:ℚ), (7:ℤ))])
      ≠ ((([((1:ℚ), (1:ℚ), (7:ℤ))]).map (fun r => r.2.2)).sum) := by
  refine ⟨?_, ?_, ?_⟩ <;> with_unfolding_all decide

/-- C9 (amended): splitting a population distribution of pairwise-disjoint,
strictly descending, hundredth-valued rank-score ranges conserves totals
whenever every range's remaining count is non-negative AND every range either
retains an unassigned band or has remaining count exactly zero (both hold for
the program's `table13`/`table14` data): every range's per-band counts then sum
exactly to its total, and the cumulative count at the lowest band equals the
sum `T` of all range totals. Without the retained-band condition the loop can
skip a range with a positive remainder, so the unconditional claim fails. -/
theorem band_split_conserves_totals (init : BandMap) (dist : List (ℚ × ℚ × ℤ))
    (hkeys : (init.map Prod.fst).Nodup)
    (hcents : ∀ r ∈ dist, isCents r.1 ∧ isCents r.2.1)
    (hdesc : List.Pairwise (fun r r' : ℚ × ℚ × ℤ => r'.2.1 < r.1) dist)
    (hrem : ∀ r ∈ dist, 0 ≤ range_remaining init r.1 r.2.1 r.2.2)
    (hcover : ∀ r ∈ dist, unassigned_bands init r.1 r.2.1 = [] →
      range_remaining init r.1 r.2.1 r.2.2 = 0)
    (hseed : (dist.map (fun r => already_assigned init r.1 r.2.1)).sum
      = (init.map Prod.snd).sum) :
    (∀ r ∈ dist, range_sum (split_bands init dist) r.1 r.2.1 = r.2.2) ∧
    cumulative_at_lowest (split_bands init dist)
      = (dist.map (fun r => r.2.2)).sum := by
  obtain ⟨c1, c2, _, c4⟩ :=
    split_bands_invariant dist init hkeys hcents hdesc hrem hcover
  refine ⟨c1, ?_⟩
  rw [cumulative_eq_values c4, c2]
  have hmr : ∀ r ∈ dist,
      range_remaining init r.1 r.2.1 r.2.2
        = (fun r : ℚ × ℚ × ℤ => r.2.2 - already_assigned init r.1 r.2.1) r := by
    intro r _
    rw [range_remaining]
  rw [List.map_congr_left hmr, list_sum_map_sub]
  linarith [hseed]

/-- C9 witness: on the seeded dictionary {2.00: 3} and the one-range
distribution [(2.00-2.05, 5)] the hypotheses hold concretely and the split
assigns 2 to band 2.05, so the range total 5 and cumulative 5 are conserved. -/
theorem band_split_conserves_totals_witness :
    range_sum (split_bands [((2:ℚ), (3:ℤ))] [((2:ℚ), (41/20:ℚ), (5:ℤ))]) 2 (41/20) = 5 ∧
    cumulative_at_lowest (split_bands [((2:ℚ), (3:ℤ))] [((2:ℚ), (41/20:ℚ), (5:ℤ))]) = 5 := by
  have h := band_split_conserves_totals [((2:ℚ), (3:ℤ))] [((2:ℚ), (41/20:ℚ), (5:ℤ))]
    (by simp)
    (by
      intro r hr
      simp only [List.mem_singleton] at hr
      subst hr
      exact ⟨⟨200, by norm_num⟩, ⟨205, by norm_num⟩⟩)
    (List.pairwise_singleton _ _)
    (by
      intro r hr
      simp only [List.mem_singleton] at hr
      subst hr
      with_unfolding_all decide)
    (by
      intro r hr
      simp only [List.mem_singleton] at hr
      subst hr
      intro hemp
      exact absurd hemp (by with_unfolding_all decide))
    (by with_unfolding_all decide)
  refine ⟨h.1 (2, 41/20, 5) (by simp), ?_⟩
  rw [h.2]
  decide
